import Mathlib

/-!
Verification of the SealGate grammar-based, content-deduplicating compressor
(`src/encode.py`, `src/decode.py`) against its natural-language specification.

Shallow embedding conventions:
* Python `str` values (symbol names, context names, hex payload strings) are
  `List Char`; Python `bytes` values are `List Nat` with each element < 256.
* Python `dict`s are association lists in insertion order; lookup returns the
  first (unique, by construction) matching key, mirroring `dict.__getitem__`.
* The truncated SHA-256 fingerprint `short_hash` is an external primitive
  (spec §1: hash internals are out of scope, only their contract is assumed);
  it is passed as an explicit function parameter `hash : Bytes → List Char`.
* Unbounded Python recursion (the decoder's `expand_symbol`) and unbounded
  loops are rendered with an explicit fuel argument; theorems either hold for
  every fuel or carry a provably sufficient fuel bound.  Fuel exhaustion in
  `expand_symbol` models CPython's `RecursionError`.
* `functools.lru_cache` memoization is semantically transparent for the pure
  `expand_symbol` and is not modelled.
-/

namespace SealGate

/-- Python `str` (symbol names, context names, hex strings). -/
abbrev Sym : Type := List Char

/-- Python `bytes`: a list of byte values (each < 256 for real inputs). -/
abbrev Bytes : Type := List Nat

/-- A template-dictionary entry: context name → hex-encoded payload string
(the value of `dictionary[sym]` in the JSON object). -/
abbrev Entry : Type := List (Sym × List Char)

/-- The template dictionary: symbol name → entry (insertion-ordered). -/
abbrev Dict : Type := List (Sym × Entry)

/-- The rule table: rule symbol name → (left operand, right operand). -/
abbrev Rules : Type := List (Sym × (Sym × Sym))

/-- Association-list lookup, mirroring Python `d[k]` / `k in d`
(keys are unique in every dict the programs build; lookup takes the
first match, which is then the only one). -/
def alookup {κ α : Type} [DecidableEq κ] (k : κ) : List (κ × α) → Option α
  | [] => none
  | e :: t => if e.1 = k then some e.2 else alookup k t

/-- First-occurrence deduplication of a list, keeping scan order: the key order
a Python dict acquires when fed the list left to right. -/
def dedupF {α : Type} [DecidableEq α] : List α → List α
  | [] => []
  | x :: t => x :: (dedupF t).filter (fun y => y ≠ x)

/-- One step of first-seen key accumulation (how a dict's key order grows). -/
def dstep {α : Type} [DecidableEq α] (ks : List α) (q : α) : List α :=
  if q ∈ ks then ks else ks ++ [q]

/-- Index of the first occurrence of `x` (length of the list if absent). -/
def firstIdx {α : Type} [DecidableEq α] (x : α) : List α → Nat
  | [] => 0
  | y :: t => if y = x then 0 else firstIdx x t + 1

/-- Decimal digit character, as produced by Python `str(n)` for one digit. -/
def digitChar : Nat → Char
  | 0 => '0' | 1 => '1' | 2 => '2' | 3 => '3' | 4 => '4'
  | 5 => '5' | 6 => '6' | 7 => '7' | 8 => '8' | _ => '9'

/-- Decimal digits of `n`, most significant first, with explicit fuel
(structural recursion so the kernel can evaluate it; `natDigs` below supplies
sufficient fuel).  Mirrors Python `str(n)` for natural `n`. -/
def natDigsAux : Nat → Nat → List Char
  | 0, _ => []
  | fuel + 1, n => if n < 10 then [digitChar n] else natDigsAux fuel (n / 10) ++ [digitChar (n % 10)]

/-- Decimal digits of `n`, i.e. Python `str(n)` for a natural number. -/
def natDigs (n : Nat) : List Char := natDigsAux (n + 1) n

/-- The rule symbol name `f"R{idx}"` allocated by `new_sym` in
`build_hierarchical_rules` (src/encode.py lines 68-72). -/
def Rname (n : Nat) : Sym := 'R' :: natDigs n

/-- Value of a digit string, used only to prove `natDigs` injective. -/
def digitVal : Char → Nat
  | '0' => 0 | '1' => 1 | '2' => 2 | '3' => 3 | '4' => 4
  | '5' => 5 | '6' => 6 | '7' => 7 | '8' => 8 | _ => 9

/-- Numeric value of a digit string (parse back `natDigs`). -/
def digitsVal (l : List Char) : Nat := l.foldl (fun a c => 10 * a + digitVal c) 0

/-- Lower-case hex digit, as produced by Python `bytes.hex()`. -/
def hexDigit : Nat → Char
  | 0 => '0' | 1 => '1' | 2 => '2' | 3 => '3' | 4 => '4'
  | 5 => '5' | 6 => '6' | 7 => '7' | 8 => '8' | 9 => '9'
  | 10 => 'a' | 11 => 'b' | 12 => 'c' | 13 => 'd' | 14 => 'e' | _ => 'f'

/-- Python `chunk.hex()`: two lower-case hex digits per byte. -/
def toHex : Bytes → List Char
  | [] => []
  | b :: t => hexDigit (b / 16) :: hexDigit (b % 16) :: toHex t

/-- Value of one hex digit, upper or lower case (as accepted by Python
`bytes.fromhex`); `none` for a non-hex character.  Computed from the
character code, as CPython's `_PyLong_DigitValue` table does. -/
def hexVal (c : Char) : Option Nat :=
  if '0' ≤ c ∧ c ≤ '9' then some (c.toNat - 48)
  else if 'a' ≤ c ∧ c ≤ 'f' then some (c.toNat - 87)
  else if 'A' ≤ c ∧ c ≤ 'F' then some (c.toNat - 55)
  else none

/-- Python `bytes.fromhex` on the strings these programs produce (pairs of hex
digits; `none` models the `ValueError` raised on malformed input.  The
whitespace-skipping of `fromhex` is irrelevant here: `bytes.hex()` output never
contains whitespace). -/
def fromHex : List Char → Option Bytes
  | [] => some []
  | [_] => none
  | c1 :: c2 :: t =>
    match hexVal c1, hexVal c2, fromHex t with
    | some h, some l, some bs => some ((16 * h + l) :: bs)
    | _, _, _ => none

/-- Python `",".join(seq)` (src/encode.py line 163). -/
def joinComma : List Sym → List Char
  | [] => []
  | [s] => s
  | s :: t => s ++ ',' :: joinComma t

/-- Python `s.split(",")` (src/decode.py line 46); on the empty string Python
returns `[""]`, and so does this function. -/
def splitComma : List Char → List Sym
  | [] => [[]]
  | c :: t =>
    if c = ',' then [] :: splitComma t
    else
      match splitComma t with
      | [] => [[c]]
      | s :: ss => (c :: s) :: ss

/-- `stream_chunks` (src/encode.py lines 31-37) with explicit fuel (`f.read`
consumes at least one byte per iteration while bytes remain, so
`input.length` iterations suffice; `chunksOf` supplies that fuel).  With
`chunk_size = 0`, `f.read(0)` returns `b""` immediately and the stream yields
no chunks, which the `cs = 0` guard in `chunksOf` reproduces. -/
def chunksOfAux (cs : Nat) : Nat → Bytes → List Bytes
  | 0, _ => []
  | _, [] => []
  | fuel + 1, b :: t => ((b :: t).take cs) :: chunksOfAux cs fuel ((b :: t).drop cs)

/-- The chunk list read by `stream_chunks(path, chunk_size)`. -/
def chunksOf (cs : Nat) (input : Bytes) : List Bytes :=
  if cs = 0 then [] else chunksOfAux cs input.length input

/-! ## Grammar Compressor (`build_hierarchical_rules`, src/encode.py 64-98) -/

/-- The adjacent-pair list `(seq[i], seq[i+1])` for `i in range(len(seq)-1)`
(src/encode.py lines 75-76). -/
def adjPairs (seq : List Sym) : List (Sym × Sym) := seq.zip seq.tail

/-- One `pairs[p] += 1` on the insertion-ordered counter: a `collections.Counter`
is a dict, so a new key is appended at the end of the iteration order and an
existing key is updated in place. -/
def bump (ps : List ((Sym × Sym) × Nat)) (p : Sym × Sym) : List ((Sym × Sym) × Nat) :=
  match ps with
  | [] => [(p, 1)]
  | e :: t => if e.1 = p then (e.1, e.2 + 1) :: t else e :: bump t p

/-- The pair counter built by the `for i in range(len(seq) - 1)` loop
(src/encode.py lines 74-76), as an insertion-ordered association list. -/
def countPairs (seq : List Sym) : List ((Sym × Sym) × Nat) :=
  (adjPairs seq).foldl bump []

/-- `pairs.most_common(1)[0]` (src/encode.py line 79): CPython implements
`most_common(1)` as `max` over the items with the count as key, which returns
the first item attaining the maximum in iteration order — i.e. ties are broken
in favour of the first-inserted (first-seen) pair.  `none` corresponds to the
`if not pairs: break` guard on line 77. -/
def mcStep (best : Option ((Sym × Sym) × Nat)) (e : (Sym × Sym) × Nat) :
    Option ((Sym × Sym) × Nat) :=
  match best with
  | none => some e
  | some b => if e.2 > b.2 then some e else some b

/-- See the doc comment above: `max` over the counter items, first-seen wins. -/
def mostCommon1 (ps : List ((Sym × Sym) × Nat)) : Option ((Sym × Sym) × Nat) :=
  ps.foldl mcStep none

/-- The substitution pass (src/encode.py lines 85-94): `while i < len(seq)`,
replacing each exact occurrence of the winning pair `(a, b)` at positions
`(i, i+1)` by `ns` and advancing by 2 (non-overlapping), otherwise copying
`seq[i]` and advancing by 1.  Fuel-indexed so the kernel can evaluate it;
`rewriteFrom` supplies sufficient fuel (`i` grows by at least 1 per step). -/
def rewriteAux (ns a b : Sym) (seq : List Sym) : Nat → Nat → List Sym
  | 0, _ => []
  | fuel + 1, i =>
    if i < seq.length then
      if i + 1 < seq.length ∧ seq.getD i [] = a ∧ seq.getD (i + 1) [] = b then
        ns :: rewriteAux ns a b seq fuel (i + 2)
      else
        seq.getD i [] :: rewriteAux ns a b seq fuel (i + 1)
    else []

/-- The rewritten sequence `new_seq`, starting the index scan at `i`. -/
def rewriteFrom (ns a b : Sym) (seq : List Sym) (i : Nat) : List Sym :=
  rewriteAux ns a b seq (seq.length + 1 - i) i

/-- Spec-side description of the substitution pass (spec §4.3 step 4):
"whenever the current position and the next form exactly the winning pair,
emit the new rule symbol and advance past both positions (consumed, not
revisited); otherwise emit the current symbol and advance by one."
Compared against the index-based source loop `rewriteFrom` in claim C3. -/
def rewriteSpec (ns a b : Sym) : List Sym → List Sym
  | x :: y :: rest =>
    if x = a ∧ y = b then ns :: rewriteSpec ns a b rest
    else x :: rewriteSpec ns a b (y :: rest)
  | l => l

/-- The `while True` loop of `build_hierarchical_rules` (src/encode.py 73-97).
State: current sequence, rules created so far (insertion order), `next_idx`.
Fuel-indexed structural recursion; every iteration that does not break appends
one rule and the loop breaks once `len(rules) >= max_new_symbols`, so
`maxNew + 1 - rules.length` fuel is sufficient (proved where used). -/
def bhrAux (minFreq maxNew : Nat) : Nat → List Sym → Rules → Nat → List Sym × Rules
  | 0, seq, rs, _ => (seq, rs)
  | fuel + 1, seq, rs, k =>
    match mostCommon1 (countPairs seq) with
    | none => (seq, rs)
    | some (ab, freq) =>
      if freq < minFreq ∨ maxNew ≤ rs.length then (seq, rs)
      else
        bhrAux minFreq maxNew fuel (rewriteFrom (Rname k) ab.1 ab.2 seq 0)
          (rs ++ [(Rname k, ab)]) (k + 1)

/-- `build_hierarchical_rules(sequence, max_new_symbols, min_pair_freq)`
(src/encode.py lines 64-98): returns the final sequence and the rule table. -/
def build_hierarchical_rules (sequence : List Sym) (max_new_symbols min_pair_freq : Nat) :
    List Sym × Rules :=
  bhrAux min_pair_freq max_new_symbols (max_new_symbols + 1) sequence [] 0

/-! ## Dictionary Manager (`encode_file`, src/encode.py 100-170) -/

/-- The `hash_to_sym` table (src/encode.py lines 109-113): for every global
dictionary key starting with `"S"`, map the hash `sym[1:]` back to `sym`. -/
def mkHashToSym (globalEntries : Dict) : List (Sym × Sym) :=
  globalEntries.filterMap fun e =>
    match e.1 with
    | 'S' :: t => some (t, 'S' :: t)
    | _ => none

/-- First streaming pass (src/encode.py lines 114-134): per chunk, use the
global symbol when the fingerprint is in `hash_to_sym`, otherwise look up or
allocate the local symbol `"L" + h` in `local_symbol_map`.  Returns the
initial symbol sequence and the final local symbol map. -/
def firstPassAux (hash : Bytes → List Char) (h2s : List (Sym × Sym)) :
    List Bytes → List (Sym × Sym) → List Sym × List (Sym × Sym)
  | [], lmap => ([], lmap)
  | c :: rest, lmap =>
    let h := hash c
    match alookup h h2s with
    | some g =>
      let r := firstPassAux hash h2s rest lmap
      (g :: r.1, r.2)
    | none =>
      match alookup h lmap with
      | some sym =>
        let r := firstPassAux hash h2s rest lmap
        (sym :: r.1, r.2)
      | none =>
        let r := firstPassAux hash h2s rest (lmap ++ [(h, 'L' :: h)])
        (('L' :: h) :: r.1, r.2)

/-- The symbol `encode_file` emits for a chunk `c`: a function of the chunk's
fingerprint only (global symbol if the fingerprint is in `hash_to_sym`,
otherwise `"L" + h`). -/
def symOf (hash : Bytes → List Char) (h2s : List (Sym × Sym)) (c : Bytes) : Sym :=
  match alookup (hash c) h2s with
  | some g => g
  | none => 'L' :: hash c

/-- Second streaming pass (src/encode.py lines 140-152): for each chunk whose
fingerprint maps to a local symbol and was not captured yet, store its bytes
under every configured context, in first-occurrence order.  A symbol whose
context map would be empty (`contexts = []`) is never materialised, because
`template_dict[sym][ctx] = ...` only runs inside `for ctx in contexts`.
The early `break` once all local symbols are captured only skips iterations
that could no longer add entries, so it is not modelled. -/
def capturePass (hash : Bytes → List Char) (lmap : List (Sym × Sym)) (contexts : List Sym) :
    List Bytes → List Sym → Dict
  | [], _ => []
  | c :: rest, seen =>
    let h := hash c
    match alookup h lmap with
    | some sym =>
      if h ∈ seen then capturePass hash lmap contexts rest seen
      else
        match contexts with
        | [] => capturePass hash lmap contexts rest (h :: seen)
        | _ :: _ =>
          (sym, contexts.map fun k => (k, toHex c)) :: capturePass hash lmap contexts rest (h :: seen)
    | none => capturePass hash lmap contexts rest seen

/-- The template aggregate written as zlib-compressed JSON (src/encode.py
lines 155-164).  `sequence` is the comma-joined symbol string. -/
structure Template where
  chunk_size : Nat
  orig_file : List Char
  total_chunks : Nat
  dictionary : Dict
  rules : Rules
  sequence : List Char

/-- `encode_file` (src/encode.py lines 100-170).  `globalEntries` is the loaded
global dictionary (entries with their informational `freq` field already
stripped, as done on lines 104-107); the JSON/zlib container serialization is
the external Template Codec boundary and is not modelled — `decode_template`
below consumes the same `Template` value that `json.loads` would reproduce. -/
def encode_file (hash : Bytes → List Char) (globalEntries : Dict) (contexts : List Sym)
    (chunk_size min_pair_freq : Nat) (input : Bytes) (orig_name : List Char) : Template :=
  let hash_to_sym := mkHashToSym globalEntries
  let chunks := chunksOf chunk_size input
  let fp := firstPassAux hash hash_to_sym chunks []
  let captured := capturePass hash fp.2 contexts chunks []
  let br := build_hierarchical_rules fp.1 10000 min_pair_freq
  { chunk_size := chunk_size
    orig_file := orig_name
    total_chunks := chunks.length
    dictionary := globalEntries ++ captured
    rules := br.2
    sequence := joinComma br.1 }

/-! ## Expander and decoder (`decode_template`, src/decode.py 17-58) -/

/-- The exceptions `decode_template` can propagate from the expansion walk:
`valueError` is the `ValueError` raised by `bytes.fromhex` on a malformed hex
string (src/decode.py lines 33 and 35, outside any `try`), and
`recursionError` is CPython's `RecursionError` when the unguarded recursion of
`expand_symbol` exhausts the interpreter stack.  The code defines no
`MalformedGrammar` (or any other) error condition of its own. -/
inductive ExpErr : Type where
  | valueError : ExpErr
  | recursionError : ExpErr
deriving DecidableEq, Repr

/-- The context string `"DEFAULT"` (src/decode.py lines 34-35). -/
def defaultCtx : Sym := ['D', 'E', 'F', 'A', 'U', 'L', 'T']

/-- The fallback scan `for v in e.values(): try: return bytes.fromhex(v)
except: continue` followed by `return b""` (src/decode.py lines 36-41):
the first value of the entry, in stored order, that parses as hex. -/
def firstUsable : Entry → Bytes
  | [] => []
  | e :: t =>
    match fromHex e.2 with
    | some bs => bs
    | none => firstUsable t

/-- The terminal branch of `expand_symbol` (src/decode.py lines 30-41):
active context first, then `"DEFAULT"`, then the first usable stored value,
then empty bytes.  The first two branches call `bytes.fromhex` outside any
`try`, so a malformed hex value there raises (`valueError`). -/
def resolveEntry (context : Sym) (e : Entry) : Except ExpErr Bytes :=
  match alookup context e with
  | some v =>
    match fromHex v with
    | some bs => .ok bs
    | none => .error .valueError
  | none =>
    match alookup defaultCtx e with
    | some v =>
      match fromHex v with
      | some bs => .ok bs
      | none => .error .valueError
    | none => .ok (firstUsable e)

/-- Exception-propagating concatenation, the semantics of
`expand_symbol(a) + expand_symbol(b)` in Python: the first exception raised
aborts the expression, otherwise the two byte strings are concatenated. -/
def expPair (ra rb : Except ExpErr Bytes) : Except ExpErr Bytes :=
  match ra with
  | .error e => .error e
  | .ok va =>
    match rb with
    | .error e => .error e
    | .ok vb => .ok (va ++ vb)

/-- `expand_symbol` (src/decode.py lines 28-45): dictionary terminals first,
then rules (concatenating the two operand expansions), then the unknown-symbol
fallback `b""`.  The fuel argument models the recursion depth available to the
unguarded Python recursion; fuel exhaustion is `RecursionError`. -/
def expand_symbol (dictionary : Dict) (rules : Rules) (context : Sym) :
    Nat → Sym → Except ExpErr Bytes
  | 0, _ => .error .recursionError
  | fuel + 1, sym =>
    match alookup sym dictionary with
    | some e => resolveEntry context e
    | none =>
      match alookup sym rules with
      | some ab =>
        expPair (expand_symbol dictionary rules context fuel ab.1)
          (expand_symbol dictionary rules context fuel ab.2)
      | none => .ok []

/-- Expansion of a whole symbol list, concatenated — the value the decode walk
would write if no error interrupts it. -/
def expandConcat (dictionary : Dict) (rules : Rules) (context : Sym) (fuel : Nat) :
    List Sym → Except ExpErr Bytes
  | [] => .ok []
  | s :: t =>
    expPair (expand_symbol dictionary rules context fuel s)
      (expandConcat dictionary rules context fuel t)

/-- The output walk of `decode_template` (src/decode.py lines 49-56): the file
is opened with mode `"wb"` (truncating it), then each symbol's expansion is
appended as soon as it is computed.  Returns the bytes present in the file when
the walk ends together with the error that interrupted it, if any — on an
exception the `with` block closes the file, leaving the bytes written so far. -/
def writeLoop (f : Sym → Except ExpErr Bytes) : List Sym → Bytes → Bytes × Option ExpErr
  | [], acc => (acc, none)
  | s :: t, acc =>
    match f s with
    | .ok b => writeLoop f t (acc ++ b)
    | .error e => (acc, some e)

/-- `decode_template` (src/decode.py lines 17-58) after the container has been
deserialized: split the sequence string (empty string ⇒ empty list, line 46)
and stream each symbol's expansion to the output file.  Result: final output
file contents and the propagated exception, if any. -/
def decode_template (fuel : Nat) (tpl : Template) (context : Sym) : Bytes × Option ExpErr :=
  let seq := if tpl.sequence = [] then [] else splitComma tpl.sequence
  writeLoop (expand_symbol tpl.dictionary tpl.rules context fuel) seq []

/-- Whether an expansion result is a normal return (no exception). -/
def excOk : Except ExpErr Bytes → Bool
  | .ok _ => true
  | .error _ => false

/-- The bytes of a normal expansion result (`[]` for an exception). -/
def excVal : Except ExpErr Bytes → Bytes
  | .ok v => v
  | .error _ => []

/-- The exception of an expansion result, if any. -/
def excErr : Except ExpErr Bytes → Option ExpErr
  | .ok _ => none
  | .error e => some e

/-- `RBound k s`: the symbol `s` is not one of the rule names `R{j}` for
`j ≥ k` — i.e. it was available before the grammar loop allocated index `k`.
Freshness invariant of the rule allocator. -/
def RBound (k : Nat) (s : Sym) : Prop := ∀ j, s = Rname j → j < k

/-! ## Concrete values used in witnesses and counterexamples -/

/-- A one-entry global dictionary used by witnesses: symbol `"S01"` with
`"DEFAULT"` payload `"01"` (the hex of chunk `[1]` under `hashW`). -/
def gW : Dict := [(['S', '0', '1'], [(defaultCtx, ['0', '1'])])]

/-- A concrete stand-in for the truncated-digest fingerprint, used to
instantiate the abstract `hash` parameter in witnesses: hex-encode the chunk.
Like `short_hash`, it is deterministic, produces only hex characters, and is
collision-free on the finite chunk sets of the witnesses. -/
def hashW (bs : Bytes) : List Char := toHex bs

/-- A template whose rule graph is cyclic (`R0 -> [R0, R0]`): the malformed
input of claim C8. -/
def cycTemplate : Template :=
  { chunk_size := 4
    orig_file := []
    total_chunks := 1
    dictionary := []
    rules := [(['R', '0'], (['R', '0'], ['R', '0']))]
    sequence := ['R', '0'] }

/-- A template whose second dictionary entry carries a non-hex payload under
`"DEFAULT"`: decoding writes the first symbol's bytes and then raises
`ValueError`, the failing input of claim C9. -/
def badHexTemplate : Template :=
  { chunk_size := 1
    orig_file := []
    total_chunks := 2
    dictionary :=
      [ (['L', '1'], [(defaultCtx, ['4', '1'])])
      , (['L', '2'], [(defaultCtx, ['z', 'z'])]) ]
    rules := []
    sequence := ['L', '1', ',', 'L', '2'] }

/-! ## Association-list lemmas -/

theorem alookup_append_of_some {κ α : Type} [DecidableEq κ] {k : κ} {l1 : List (κ × α)}
    (l2 : List (κ × α)) {v : α} (h : alookup k l1 = some v) :
    alookup k (l1 ++ l2) = some v := by
  induction l1 with
  | nil => simp [alookup] at h
  | cons e t ih =>
    simp only [alookup, List.cons_append] at h ⊢
    split at h
    · rename_i he
      rw [if_pos he]
      exact h
    · simp only [*, if_neg]
      exact ih h

theorem alookup_append_of_none {κ α : Type} [DecidableEq κ] {k : κ} {l1 : List (κ × α)}
    (l2 : List (κ × α)) (h : alookup k l1 = none) :
    alookup k (l1 ++ l2) = alookup k l2 := by
  induction l1 with
  | nil => rfl
  | cons e t ih =>
    simp only [alookup, List.cons_append] at h ⊢
    split at h
    · exact absurd h (by simp)
    · simp only [*, if_neg]
      exact ih h

theorem alookup_mem {κ α : Type} [DecidableEq κ] {k : κ} {l : List (κ × α)} {v : α}
    (h : alookup k l = some v) : (k, v) ∈ l := by
  induction l with
  | nil => simp [alookup] at h
  | cons e t ih =>
    obtain ⟨e1, e2⟩ := e
    simp only [alookup] at h
    split at h
    · rename_i he
      simp only [Option.some.injEq] at h
      subst he
      subst h
      exact List.mem_cons_self _ _
    · exact List.mem_cons_of_mem _ (ih h)

theorem alookup_eq_none_iff {κ α : Type} [DecidableEq κ] {k : κ} {l : List (κ × α)} :
    alookup k l = none ↔ k ∉ l.map Prod.fst := by
  induction l with
  | nil => simp [alookup]
  | cons e t ih =>
    simp only [alookup, List.map_cons, List.mem_cons]
    split
    · simp [*]
    · rename_i hne
      simp only [ih]
      constructor
      · intro h hk
        rcases hk with hk | hk
        · exact hne hk.symm
        · exact h hk
      · intro h hk
        exact h (Or.inr hk)

theorem alookup_isSome_of_mem {κ α : Type} [DecidableEq κ] {k : κ} {l : List (κ × α)} {v : α}
    (h : (k, v) ∈ l) : ∃ w, alookup k l = some w := by
  induction l with
  | nil => simp at h
  | cons e t ih =>
    rcases List.mem_cons.1 h with he | ht
    · exact ⟨e.2, by simp [alookup, ← he]⟩
    · by_cases hk : e.1 = k
      · exact ⟨e.2, by simp [alookup, hk]⟩
      · rcases ih ht with ⟨w, hw⟩
        exact ⟨w, by simp [alookup, hk, hw]⟩

theorem alookup_of_mem_nodup {κ α : Type} [DecidableEq κ] {k : κ} {l : List (κ × α)} {v : α}
    (hnd : (l.map Prod.fst).Nodup) (h : (k, v) ∈ l) : alookup k l = some v := by
  induction l with
  | nil => simp at h
  | cons e t ih =>
    simp only [List.map_cons, List.nodup_cons] at hnd
    rcases List.mem_cons.1 h with he | ht
    · simp [alookup, ← he]
    · have hk : e.1 ≠ k := by
        intro hk
        exact hnd.1 (hk ▸ List.mem_map_of_mem Prod.fst ht)
      simp only [alookup, if_neg hk]
      exact ih hnd.2 ht

theorem alookup_map_const {κ α : Type} [DecidableEq κ] {k : κ} {l : List κ} {v : α}
    (h : k ∈ l) : alookup k (l.map fun x => (x, v)) = some v := by
  induction l with
  | nil => simp at h
  | cons x t ih =>
    by_cases hx : x = k
    · simp [alookup, hx]
    · rcases List.mem_cons.1 h with he | ht
      · exact absurd he.symm hx
      · simp only [List.map_cons, alookup, if_neg hx]
        exact ih ht

/-! ## Decimal digits and rule names -/

theorem digitVal_digitChar {d : Nat} (h : d < 10) : digitVal (digitChar d) = d := by
  interval_cases d <;> rfl

theorem digitChar_ne_comma (d : Nat) : digitChar d ≠ ',' := by
  rcases d with _ | _ | _ | _ | _ | _ | _ | _ | _ | d <;> simp [digitChar]

theorem digitsVal_append_single (l : List Char) (c : Char) :
    digitsVal (l ++ [c]) = 10 * digitsVal l + digitVal c := by
  simp [digitsVal, List.foldl_append]

theorem digitsVal_natDigsAux {fuel n : Nat} (h : n < fuel) :
    digitsVal (natDigsAux fuel n) = n := by
  induction fuel generalizing n with
  | zero => omega
  | succ fuel ih =>
    by_cases h10 : n < 10
    · simp [natDigsAux, h10, digitsVal, digitVal_digitChar h10]
    · have hdiv : n / 10 < n := Nat.div_lt_self (by omega) (by omega)
      have hmod : n % 10 < 10 := Nat.mod_lt _ (by omega)
      have hih := ih (show n / 10 < fuel by omega)
      simp only [natDigsAux, if_neg h10, digitsVal_append_single, hih,
        digitVal_digitChar hmod]
      omega

theorem digitsVal_natDigs (n : Nat) : digitsVal (natDigs n) = n :=
  digitsVal_natDigsAux (Nat.lt_succ_self n)

theorem natDigs_inj {m n : Nat} (h : natDigs m = natDigs n) : m = n := by
  have := digitsVal_natDigs m
  rw [h, digitsVal_natDigs] at this
  omega

theorem Rname_inj {m n : Nat} (h : Rname m = Rname n) : m = n := by
  simp only [Rname, List.cons.injEq, true_and] at h
  exact natDigs_inj h

theorem mem_natDigsAux {fuel n : Nat} {c : Char} (h : c ∈ natDigsAux fuel n) :
    ∃ d, c = digitChar d := by
  induction fuel generalizing n with
  | zero => simp [natDigsAux] at h
  | succ fuel ih =>
    by_cases h10 : n < 10
    · simp [natDigsAux, h10] at h
      exact ⟨n, h⟩
    · simp only [natDigsAux, if_neg h10, List.mem_append, List.mem_singleton] at h
      rcases h with h | h
      · exact ih h
      · exact ⟨n % 10, h⟩

theorem comma_not_mem_Rname (n : Nat) : ',' ∉ Rname n := by
  simp only [Rname, List.mem_cons]
  rintro (h | h)
  · exact absurd h.symm (by decide)
  · rcases mem_natDigsAux h with ⟨d, hd⟩
    exact digitChar_ne_comma d hd.symm

theorem Rname_ne_nil (n : Nat) : Rname n ≠ [] := by simp [Rname]

/-! ## Hex encoding -/

theorem hexVal_hexDigit {d : Nat} (h : d < 16) : hexVal (hexDigit d) = some d := by
  interval_cases d <;> decide

theorem hexDigit_ne_comma (d : Nat) : hexDigit d ≠ ',' := by
  rcases d with _ | _ | _ | _ | _ | _ | _ | _ | _ | _ | _ | _ | _ | _ | _ | d <;>
    simp [hexDigit]

theorem fromHex_toHex {bs : Bytes} (h : ∀ b ∈ bs, b < 256) : fromHex (toHex bs) = some bs := by
  induction bs with
  | nil => rfl
  | cons b t ih =>
    have hb : b < 256 := h b (by simp)
    have hdiv : b / 16 < 16 := by
      rw [Nat.div_lt_iff_lt_mul (by omega)]
      omega
    have hmod : b % 16 < 16 := Nat.mod_lt _ (by omega)
    have ht : fromHex (toHex t) = some t := ih fun x hx => h x (List.mem_cons_of_mem _ hx)
    simp [toHex, fromHex, hexVal_hexDigit hdiv, hexVal_hexDigit hmod, ht,
      Nat.div_add_mod b 16]

theorem comma_not_mem_toHex (bs : Bytes) : ',' ∉ toHex bs := by
  induction bs with
  | nil => simp [toHex]
  | cons b t ih =>
    simp only [toHex, List.mem_cons]
    rintro (h | h | h)
    · exact hexDigit_ne_comma _ h.symm
    · exact hexDigit_ne_comma _ h.symm
    · exact ih h

/-! ## Comma join / split -/

theorem splitComma_no_comma {s : List Char} (h : ',' ∉ s) : splitComma s = [s] := by
  induction s with
  | nil => rfl
  | cons c t ih =>
    have hc : c ≠ ',' := fun hc => h (by simp [hc])
    have ht : splitComma t = [t] := ih fun hm => h (List.mem_cons_of_mem _ hm)
    simp [splitComma, hc, ht]

theorem splitComma_append_comma {s : List Char} (t : List Char) (h : ',' ∉ s) :
    splitComma (s ++ ',' :: t) = s :: splitComma t := by
  induction s with
  | nil => simp [splitComma]
  | cons c s' ih =>
    have hc : c ≠ ',' := fun hc => h (by simp [hc])
    have hs' : splitComma (s' ++ ',' :: t) = s' :: splitComma t :=
      ih fun hm => h (List.mem_cons_of_mem _ hm)
    simp [splitComma, hc, hs']

theorem splitComma_joinComma {l : List Sym} (hl : l ≠ []) (h : ∀ s ∈ l, ',' ∉ s) :
    splitComma (joinComma l) = l := by
  induction l with
  | nil => exact absurd rfl hl
  | cons x t ih =>
    cases t with
    | nil => exact splitComma_no_comma (h x (by simp))
    | cons y r =>
      have hx : ',' ∉ x := h x (by simp)
      have hrec : splitComma (joinComma (y :: r)) = y :: r :=
        ih (by simp) fun s hs => h s (List.mem_cons_of_mem _ hs)
      simp only [joinComma]
      rw [splitComma_append_comma _ hx, hrec]

/-! ## Chunking -/

theorem chunksOfAux_flatten {cs : Nat} (hcs : 0 < cs) :
    ∀ (fuel : Nat) (l : Bytes), l.length ≤ fuel → (chunksOfAux cs fuel l).flatten = l := by
  intro fuel
  induction fuel with
  | zero =>
    intro l hl
    have h0 : l = [] := List.length_eq_zero.1 (by omega)
    subst h0
    rfl
  | succ fuel ih =>
    intro l hl
    cases l with
    | nil => rfl
    | cons b t =>
      have hd : ((b :: t).drop cs).length ≤ fuel := by
        simp only [List.length_drop, List.length_cons] at *
        omega
      simp only [chunksOfAux, List.flatten_cons, ih _ hd, List.take_append_drop]

theorem chunksOf_flatten {cs : Nat} (hcs : 0 < cs) (l : Bytes) : (chunksOf cs l).flatten = l := by
  rw [chunksOf, if_neg (by omega)]
  exact chunksOfAux_flatten hcs _ _ le_rfl

theorem mem_chunksOfAux_sub {cs fuel : Nat} {l c : Bytes} (hc : c ∈ chunksOfAux cs fuel l) :
    ∀ b ∈ c, b ∈ l := by
  induction fuel generalizing l with
  | zero => simp [chunksOfAux] at hc
  | succ fuel ih =>
    cases l with
    | nil => simp [chunksOfAux] at hc
    | cons x t =>
      simp only [chunksOfAux, List.mem_cons] at hc
      rcases hc with hc | hc
      · intro b hb
        exact List.mem_of_mem_take (hc ▸ hb)
      · intro b hb
        exact List.mem_of_mem_drop (ih hc b hb)

theorem mem_chunksOf_sub {cs : Nat} {l c : Bytes} (hc : c ∈ chunksOf cs l) :
    ∀ b ∈ c, b ∈ l := by
  rw [chunksOf] at hc
  split at hc
  · simp at hc
  · exact mem_chunksOfAux_sub hc

theorem chunksOf_ne_nil {cs : Nat} (hcs : 0 < cs) {l : Bytes} (hl : l ≠ []) :
    chunksOf cs l ≠ [] := by
  cases l with
  | nil => exact absurd rfl hl
  | cons b t => simp [chunksOf, Nat.pos_iff_ne_zero.1 hcs, chunksOfAux]

/-! ## Counter lemmas: insertion order, counts, first-seen maximum -/

theorem bump_lookup_self (ps : List ((Sym × Sym) × Nat)) (p : Sym × Sym) :
    alookup p (bump ps p) = some ((alookup p ps).getD 0 + 1) := by
  induction ps with
  | nil => simp [bump, alookup]
  | cons e t ih =>
    by_cases he : e.1 = p
    · simp [bump, alookup, he]
    · simp [bump, alookup, he, ih]

theorem bump_lookup_other (ps : List ((Sym × Sym) × Nat)) {p q : Sym × Sym} (h : q ≠ p) :
    alookup q (bump ps p) = alookup q ps := by
  have hpq : ¬ p = q := fun he => h he.symm
  induction ps with
  | nil => simp [bump, alookup, hpq]
  | cons e t ih =>
    by_cases he : e.1 = p
    · have heq : ¬ e.1 = q := fun h2 => hpq (he ▸ h2)
      simp [bump, alookup, he, heq, hpq]
    · simp [bump, alookup, he, ih]

theorem bump_keys (ps : List ((Sym × Sym) × Nat)) (p : Sym × Sym) :
    (bump ps p).map Prod.fst = dstep (ps.map Prod.fst) p := by
  rw [dstep]
  induction ps with
  | nil => simp [bump]
  | cons e t ih =>
    by_cases he : e.1 = p
    · simp [bump, he]
    · have : ¬ p = e.1 := fun hq => he hq.symm
      simp only [bump, if_neg he, List.map_cons, List.mem_cons, this, false_or, ih]
      split <;> simp

theorem bump_pos {ps : List ((Sym × Sym) × Nat)} (hp : ∀ e ∈ ps, 0 < e.2) (p : Sym × Sym) :
    ∀ e ∈ bump ps p, 0 < e.2 := by
  induction ps with
  | nil =>
    intro e he
    simp only [bump, List.mem_singleton] at he
    simp [he]
  | cons q t ih =>
    intro e he
    by_cases hq : q.1 = p
    · simp only [bump, if_pos hq, List.mem_cons] at he
      rcases he with he | he
      · have := hp q (by simp)
        simp [he]
      · exact hp e (List.mem_cons_of_mem _ he)
    · simp only [bump, if_neg hq, List.mem_cons] at he
      rcases he with he | he
      · exact he ▸ hp q (by simp)
      · exact ih (fun d hd => hp d (List.mem_cons_of_mem _ hd)) e he

theorem foldl_bump_pos (l : List (Sym × Sym)) :
    ∀ acc, (∀ e ∈ acc, 0 < e.2) → ∀ e ∈ l.foldl bump acc, 0 < e.2 := by
  induction l with
  | nil => exact fun acc h => h
  | cons q t ih => exact fun acc h => ih _ (bump_pos h q)

theorem foldl_bump_getD (l : List (Sym × Sym)) :
    ∀ (acc : List ((Sym × Sym) × Nat)) (p : Sym × Sym),
      (alookup p (l.foldl bump acc)).getD 0 = (alookup p acc).getD 0 + l.count p := by
  induction l with
  | nil => simp
  | cons q t ih =>
    intro acc p
    by_cases hq : q = p
    · subst hq
      simp only [List.foldl_cons, ih, bump_lookup_self, Option.getD_some, List.count_cons,
        beq_self_eq_true, if_pos]
      omega
    · have hne : p ≠ q := fun h => hq h.symm
      simp only [List.foldl_cons, ih, bump_lookup_other _ hne, List.count_cons]
      have : (p == q) = false := beq_eq_false_iff_ne.2 hne
      simp [this, hq]

theorem foldl_bump_keys (l : List (Sym × Sym)) :
    ∀ acc, (l.foldl bump acc).map Prod.fst = l.foldl dstep (acc.map Prod.fst) := by
  induction l with
  | nil => simp
  | cons q t ih =>
    intro acc
    simp only [List.foldl_cons, ih, bump_keys]

/-! ## First-seen dedup order -/

theorem mem_dedupF {α : Type} [DecidableEq α] {x : α} : ∀ {l : List α}, x ∈ dedupF l ↔ x ∈ l := by
  intro l
  induction l with
  | nil => simp [dedupF]
  | cons y t ih =>
    simp only [dedupF, List.mem_cons, List.mem_filter, decide_eq_true_eq]
    constructor
    · rintro (h | ⟨h, -⟩)
      · exact Or.inl h
      · exact Or.inr (ih.1 h)
    · rintro (h | h)
      · exact Or.inl h
      · by_cases hxy : x = y
        · exact Or.inl hxy
        · exact Or.inr ⟨ih.2 h, hxy⟩

theorem dedupF_nodup {α : Type} [DecidableEq α] : ∀ (l : List α), (dedupF l).Nodup := by
  intro l
  induction l with
  | nil => simp [dedupF]
  | cons y t ih =>
    simp only [dedupF, List.nodup_cons]
    refine ⟨fun hy => ?_, ih.filter _⟩
    have := (List.mem_filter.1 hy).2
    simp at this

theorem dedupF_filter {α : Type} [DecidableEq α] (p : α → Bool) :
    ∀ (l : List α), dedupF (l.filter p) = (dedupF l).filter p := by
  intro l
  induction l with
  | nil => simp [dedupF]
  | cons x t ih =>
    by_cases hp : p x
    · rw [List.filter_cons_of_pos hp]
      simp only [dedupF, ih, List.filter_cons_of_pos hp, List.filter_filter]
      congr 1
      apply List.filter_congr
      intro y hy
      exact Bool.and_comm _ _
    · rw [List.filter_cons_of_neg hp]
      simp only [dedupF, ih, List.filter_cons_of_neg hp, List.filter_filter]
      apply List.filter_congr
      intro y hy
      by_cases hyx : y = x
      · subst hyx
        simp [hp]
      · simp [hyx]

theorem foldl_dedup {α : Type} [DecidableEq α] :
    ∀ (l : List α) (acc : List α),
      l.foldl dstep acc = acc ++ dedupF (l.filter fun y => y ∉ acc) := by
  intro l
  induction l with
  | nil => simp [dedupF]
  | cons x t ih =>
    intro acc
    by_cases hx : x ∈ acc
    · simp only [List.foldl_cons, dstep, if_pos hx, ih, List.filter_cons]
      have : (decide (x ∉ acc)) = false := by simp [hx]
      simp [this]
    · simp only [List.foldl_cons, dstep, if_neg hx, ih, List.filter_cons]
      have hdx : (decide (x ∉ acc)) = true := by simp [hx]
      simp only [hdx, if_pos]
      have hfilter : (t.filter fun y => y ∉ acc ++ [x]) =
          (t.filter fun y => y ∉ acc).filter fun y => y ≠ x := by
        rw [List.filter_filter]
        apply List.filter_congr
        intro y hy
        by_cases h1 : y ∈ acc <;> by_cases h2 : y = x <;> simp [h1, h2]
      rw [hfilter, dedupF_filter]
      simp only [dedupF]
      simp [List.append_assoc]

theorem firstIdx_cons_self {α : Type} [DecidableEq α] (x : α) (t : List α) :
    firstIdx x (x :: t) = 0 := by
  simp [firstIdx]

theorem firstIdx_cons_ne {α : Type} [DecidableEq α] {x y : α} (t : List α) (h : y ≠ x) :
    firstIdx x (y :: t) = firstIdx x t + 1 := by
  simp [firstIdx, h]

theorem dedupF_pairwise {α : Type} [DecidableEq α] :
    ∀ (l : List α), (dedupF l).Pairwise fun a b => firstIdx a l < firstIdx b l := by
  intro l
  induction l with
  | nil => simp [dedupF]
  | cons x t ih =>
    simp only [dedupF, List.pairwise_cons]
    constructor
    · intro y hy
      have hyx : y ≠ x := by
        have := (List.mem_filter.1 hy).2
        simpa using this
      rw [firstIdx_cons_self, firstIdx_cons_ne _ (Ne.symm hyx)]
      omega
    · have hsub : ((dedupF t).filter fun y => y ≠ x).Pairwise
          fun a b => firstIdx a t < firstIdx b t :=
        List.Pairwise.sublist (List.filter_sublist _) ih
      refine List.Pairwise.imp_of_mem ?_ hsub
      intro a b ha hb hab
      have hax : a ≠ x := by
        have := (List.mem_filter.1 ha).2
        simpa using this
      have hbx : b ≠ x := by
        have := (List.mem_filter.1 hb).2
        simpa using this
      rw [firstIdx_cons_ne _ (Ne.symm hax), firstIdx_cons_ne _ (Ne.symm hbx)]
      omega

theorem mcStep_go {e : (Sym × Sym) × Nat} :
    ∀ (ps : List ((Sym × Sym) × Nat)) (b : (Sym × Sym) × Nat),
      ps.foldl mcStep (some b) = some e →
      (e = b ∧ ∀ d ∈ ps, d.2 ≤ b.2) ∨
        (∃ l1 l2, ps = l1 ++ e :: l2 ∧ b.2 < e.2 ∧ (∀ d ∈ l1, d.2 < e.2) ∧
          ∀ d ∈ l2, d.2 ≤ e.2) := by
  intro ps
  induction ps with
  | nil =>
    intro b h
    simp only [List.foldl_nil, Option.some.injEq] at h
    exact Or.inl ⟨h.symm, by simp⟩
  | cons d t ih =>
    intro b h
    simp only [List.foldl_cons] at h
    by_cases hd : d.2 > b.2
    · rw [show mcStep (some b) d = some d by simp [mcStep, hd]] at h
      rcases ih d h with ⟨he, hall⟩ | ⟨l1, l2, ht, hb, hl1, hl2⟩
      · subst he
        exact Or.inr ⟨[], t, by simp, hd, by simp, hall⟩
      · refine Or.inr ⟨d :: l1, l2, by simp [ht], by omega, ?_, hl2⟩
        intro x hx
        rcases List.mem_cons.1 hx with hx | hx
        · subst hx; omega
        · exact hl1 x hx
    · rw [show mcStep (some b) d = some b by simp [mcStep, hd]] at h
      rcases ih b h with ⟨he, hall⟩ | ⟨l1, l2, ht, hb, hl1, hl2⟩
      · refine Or.inl ⟨he, ?_⟩
        intro x hx
        rcases List.mem_cons.1 hx with hx | hx
        · subst hx; omega
        · exact hall x hx
      · refine Or.inr ⟨d :: l1, l2, by simp [ht], hb, ?_, hl2⟩
        intro x hx
        rcases List.mem_cons.1 hx with hx | hx
        · subst hx; omega
        · exact hl1 x hx

/-- What `most_common(1)` returns: an entry of the counter whose count is
maximal, with every strictly earlier entry having a strictly smaller count
(first-seen wins ties). -/
theorem mostCommon1_spec {ps : List ((Sym × Sym) × Nat)} {e : (Sym × Sym) × Nat}
    (h : mostCommon1 ps = some e) :
    ∃ l1 l2, ps = l1 ++ e :: l2 ∧ (∀ d ∈ l1, d.2 < e.2) ∧ ∀ d ∈ ps, d.2 ≤ e.2 := by
  cases ps with
  | nil => simp [mostCommon1] at h
  | cons p0 t =>
    rw [mostCommon1, List.foldl_cons, show mcStep none p0 = some p0 from rfl] at h
    rcases mcStep_go t p0 h with ⟨he, hall⟩ | ⟨l1, l2, ht, hb, hl1, hl2⟩
    · subst he
      refine ⟨[], t, by simp, by simp, ?_⟩
      intro d hd
      rcases List.mem_cons.1 hd with hd | hd
      · subst hd; omega
      · exact hall d hd
    · refine ⟨p0 :: l1, l2, by simp [ht], ?_, ?_⟩
      · intro d hd
        rcases List.mem_cons.1 hd with hd | hd
        · subst hd; omega
        · exact hl1 d hd
      · intro d hd
        rcases List.mem_cons.1 hd with hd | hd
        · subst hd; omega
        · rw [ht] at hd
          rcases List.mem_append.1 hd with hd | hd
          · exact le_of_lt (hl1 d hd)
          · rcases List.mem_cons.1 hd with hd | hd
            · subst hd; omega
            · exact hl2 d hd

theorem mostCommon1_eq_none {ps : List ((Sym × Sym) × Nat)} :
    mostCommon1 ps = none ↔ ps = [] := by
  cases ps with
  | nil => simp [mostCommon1]
  | cons p0 t =>
    simp only [mostCommon1, List.foldl_cons, show mcStep none p0 = some p0 from rfl]
    constructor
    · intro h
      exfalso
      induction t generalizing p0 with
      | nil => simp at h
      | cons d t ih =>
        rw [List.foldl_cons] at h
        by_cases hd : d.2 > p0.2
        · rw [show mcStep (some p0) d = some d by simp [mcStep, hd]] at h
          exact ih d h
        · rw [show mcStep (some p0) d = some p0 by simp [mcStep, hd]] at h
          exact ih p0 h
    · intro h
      simp at h

/-! ## countPairs corollaries -/

theorem countPairs_keys (seq : List Sym) :
    (countPairs seq).map Prod.fst = dedupF (adjPairs seq) := by
  rw [countPairs, foldl_bump_keys, show (([] : List ((Sym × Sym) × Nat)).map Prod.fst) = []
    from rfl, foldl_dedup]
  simp

theorem countPairs_getD (seq : List Sym) (p : Sym × Sym) :
    (alookup p (countPairs seq)).getD 0 = (adjPairs seq).count p := by
  rw [countPairs, foldl_bump_getD]
  simp [alookup]

theorem countPairs_lookup_count {seq : List Sym} {p : Sym × Sym} {c : Nat}
    (h : alookup p (countPairs seq) = some c) : (adjPairs seq).count p = c := by
  have := countPairs_getD seq p
  rw [h] at this
  exact this.symm

theorem countPairs_lookup_of_mem {seq : List Sym} {p : Sym × Sym}
    (h : p ∈ adjPairs seq) :
    alookup p (countPairs seq) = some ((adjPairs seq).count p) := by
  have hk : p ∈ (countPairs seq).map Prod.fst := by
    rw [countPairs_keys]
    exact mem_dedupF.2 h
  cases hl : alookup p (countPairs seq) with
  | none => exact absurd (alookup_eq_none_iff.1 hl) (by simp [hk])
  | some c => rw [countPairs_lookup_count hl]

theorem countPairs_pos (seq : List Sym) : ∀ e ∈ countPairs seq, 0 < e.2 :=
  foldl_bump_pos _ _ (by simp)

theorem countPairs_nodup (seq : List Sym) : ((countPairs seq).map Prod.fst).Nodup := by
  rw [countPairs_keys]
  exact dedupF_nodup _

theorem countPairs_pairwise (seq : List Sym) :
    ((countPairs seq).map Prod.fst).Pairwise
      fun a b => firstIdx a (adjPairs seq) < firstIdx b (adjPairs seq) := by
  rw [countPairs_keys]
  exact dedupF_pairwise _

/-! ## find? via firstIdx -/

theorem find?_eq_of_firstIdx {α : Type} [DecidableEq α] {pred : α → Bool} :
    ∀ {l : List α} {x : α}, x ∈ l → pred x = true →
      (∀ y ∈ l, pred y = true → firstIdx x l ≤ firstIdx y l) → l.find? pred = some x := by
  intro l
  induction l with
  | nil => intro x hx; simp at hx
  | cons z t ih =>
    intro x hx hpx hmin
    by_cases hz : pred z
    · have hxz : x = z := by
        by_contra hne
        have h1 := hmin z (by simp) hz
        rw [firstIdx_cons_self, firstIdx_cons_ne _ (fun h => hne h.symm)] at h1
        omega
      rw [List.find?_cons_of_pos _ hz, hxz]
    · have hzb : pred z = false := by simpa using hz
      have hxz : x ≠ z := fun h => by rw [h, hzb] at hpx; exact absurd hpx (by simp)
      have hxt : x ∈ t := by
        rcases List.mem_cons.1 hx with h | h
        · exact absurd h hxz
        · exact h
      rw [List.find?_cons_of_neg _ hz]
      refine ih hxt hpx ?_
      intro y hy hpy
      have hyz : y ≠ z := fun h => by rw [h, hzb] at hpy; exact absurd hpy (by simp)
      have := hmin y (List.mem_cons_of_mem _ hy) hpy
      rw [firstIdx_cons_ne _ (Ne.symm hxz), firstIdx_cons_ne _ (Ne.symm hyz)] at this
      omega

theorem firstIdx_le_of_pairwise {α : Type} [DecidableEq α] {l keys : List α} {x y : α}
    (hp : keys.Pairwise fun a b => firstIdx a l < firstIdx b l)
    (hnd : keys.Nodup) (hx : x ∈ keys) (hy : y ∈ keys)
    (horder : ∃ k1 k2, keys = k1 ++ x :: k2 ∧ y ∉ k1) :
    firstIdx x l ≤ firstIdx y l := by
  rcases horder with ⟨k1, k2, hk, hyk1⟩
  subst hk
  rcases List.mem_append.1 hy with hy1 | hy2
  · exact absurd hy1 hyk1
  · rcases List.mem_cons.1 hy2 with hy2 | hy2
    · subst hy2; omega
    · have := (List.pairwise_append.1 hp).2.1
      exact le_of_lt ((List.pairwise_cons.1 this).1 y hy2)

/-! ## The substitution pass: index loop vs structural description -/

theorem drop_eq_getD_cons {l : List Sym} : ∀ {i : Nat}, i < l.length →
    l.drop i = l.getD i [] :: l.drop (i + 1) := by
  intro i h
  rw [List.drop_eq_getElem_cons h]
  congr 1
  rw [List.getD_eq_getElem?_getD, List.getElem?_eq_getElem h]
  rfl

theorem rewriteAux_succ (ns a b : Sym) (seq : List Sym) (fuel i : Nat) :
    rewriteAux ns a b seq (fuel + 1) i =
      if i < seq.length then
        if i + 1 < seq.length ∧ seq.getD i [] = a ∧ seq.getD (i + 1) [] = b then
          ns :: rewriteAux ns a b seq fuel (i + 2)
        else seq.getD i [] :: rewriteAux ns a b seq fuel (i + 1)
      else [] := rfl

theorem rewriteSpec_cons_cons (ns a b x y : Sym) (rest : List Sym) :
    rewriteSpec ns a b (x :: y :: rest) =
      if x = a ∧ y = b then ns :: rewriteSpec ns a b rest
      else x :: rewriteSpec ns a b (y :: rest) := rfl

theorem rewriteAux_eq_spec {ns a b : Sym} {seq : List Sym} :
    ∀ (fuel i : Nat), seq.length - i < fuel →
      rewriteAux ns a b seq fuel i = rewriteSpec ns a b (seq.drop i) := by
  intro fuel
  induction fuel with
  | zero => intro i h; omega
  | succ fuel ih =>
    intro i h
    by_cases hi : i < seq.length
    · have hdi : seq.drop i = seq.getD i [] :: seq.drop (i + 1) := drop_eq_getD_cons hi
      by_cases hc : i + 1 < seq.length ∧ seq.getD i [] = a ∧ seq.getD (i + 1) [] = b
      · obtain ⟨h1, h2, h3⟩ := hc
        have hdi2 : seq.drop (i + 1) = seq.getD (i + 1) [] :: seq.drop (i + 2) :=
          drop_eq_getD_cons h1
        rw [rewriteAux_succ, if_pos hi, if_pos ⟨h1, h2, h3⟩, hdi, hdi2, h2, h3,
          rewriteSpec_cons_cons, if_pos ⟨rfl, rfl⟩, ih (i + 2) (by omega)]
      · rw [rewriteAux_succ, if_pos hi, if_neg hc, ih (i + 1) (by omega), hdi]
        by_cases h1 : i + 1 < seq.length
        · have hdi2 : seq.drop (i + 1) = seq.getD (i + 1) [] :: seq.drop (i + 2) :=
            drop_eq_getD_cons h1
          have hpair : ¬ (seq.getD i [] = a ∧ seq.getD (i + 1) [] = b) := fun hp =>
            hc ⟨h1, hp.1, hp.2⟩
          rw [hdi2, rewriteSpec_cons_cons, if_neg hpair, ← hdi2]
        · rw [List.drop_eq_nil_of_le (show seq.length ≤ i + 1 by omega)]
          rfl
    · rw [List.drop_eq_nil_of_le (show seq.length ≤ i by omega),
        show rewriteAux ns a b seq (fuel + 1) i = [] by rw [rewriteAux_succ, if_neg hi]]
      rfl

/-- The source's index-based substitution loop computes exactly the structural
left-to-right non-overlapping replacement. -/
theorem rewriteFrom_eq_spec (ns a b : Sym) (seq : List Sym) :
    rewriteFrom ns a b seq 0 = rewriteSpec ns a b seq := by
  rw [rewriteFrom, rewriteAux_eq_spec _ _ (by omega), List.drop_zero]

theorem rewriteSpec_mem {ns a b : Sym} :
    ∀ (l : List Sym), ∀ s ∈ rewriteSpec ns a b l, s = ns ∨ s ∈ l
  | [] => by simp [rewriteSpec]
  | [x] => by simp [rewriteSpec]
  | x :: y :: rest => by
    by_cases h : x = a ∧ y = b
    · simp only [rewriteSpec, if_pos h]
      intro s hs
      rcases List.mem_cons.1 hs with hs | hs
      · exact Or.inl hs
      · rcases rewriteSpec_mem rest s hs with h1 | h1
        · exact Or.inl h1
        · exact Or.inr (by simp [h1])
    · simp only [rewriteSpec, if_neg h]
      intro s hs
      rcases List.mem_cons.1 hs with hs | hs
      · exact Or.inr (by simp [hs])
      · rcases rewriteSpec_mem (y :: rest) s hs with h1 | h1
        · exact Or.inl h1
        · exact Or.inr (List.mem_cons_of_mem _ h1)

theorem rewriteSpec_ne_nil {ns a b : Sym} :
    ∀ {l : List Sym}, l ≠ [] → rewriteSpec ns a b l ≠ []
  | [], h => absurd rfl h
  | [x], _ => by simp [rewriteSpec]
  | x :: y :: rest, _ => by
    by_cases h : x = a ∧ y = b
    · simp [rewriteSpec, if_pos h]
    · simp [rewriteSpec, if_neg h]


/-! ## Expansion lemmas -/

theorem expPair_err_left (e : ExpErr) (rb : Except ExpErr Bytes) :
    expPair (.error e) rb = .error e := rfl

theorem expPair_ok_ok (va vb : Bytes) : expPair (.ok va) (.ok vb) = .ok (va ++ vb) := rfl

theorem expPair_ok_iff {ra rb : Except ExpErr Bytes} {v : Bytes} :
    expPair ra rb = .ok v ↔ ∃ va vb, ra = .ok va ∧ rb = .ok vb ∧ v = va ++ vb := by
  cases ra with
  | error e => simp [expPair]
  | ok va =>
    cases rb with
    | error e => simp [expPair]
    | ok vb =>
      simp only [expPair]
      constructor
      · intro h
        cases h
        exact ⟨va, vb, rfl, rfl, rfl⟩
      · rintro ⟨va2, vb2, h1, h2, h3⟩
        cases h1
        cases h2
        rw [h3]

theorem expand_symbol_succ (D : Dict) (R : Rules) (ctx : Sym) (fuel : Nat) (sym : Sym) :
    expand_symbol D R ctx (fuel + 1) sym =
      match alookup sym D with
      | some e => resolveEntry ctx e
      | none =>
        match alookup sym R with
        | some ab =>
          expPair (expand_symbol D R ctx fuel ab.1) (expand_symbol D R ctx fuel ab.2)
        | none => .ok [] := rfl

theorem expand_symbol_mono {D : Dict} {R : Rules} {ctx : Sym} :
    ∀ {fuel : Nat} {sym : Sym} {v : Bytes},
      expand_symbol D R ctx fuel sym = .ok v →
      expand_symbol D R ctx (fuel + 1) sym = .ok v := by
  intro fuel
  induction fuel with
  | zero =>
    intro sym v h
    exact absurd h (by simp [expand_symbol])
  | succ fuel ih =>
    intro sym v h
    rw [expand_symbol_succ] at h ⊢
    cases hd : alookup sym D with
    | some e =>
      rw [hd] at h
      exact h
    | none =>
      rw [hd] at h
      cases hr : alookup sym R with
      | none =>
        rw [hr] at h
        exact h
      | some ab =>
        rw [hr] at h
        replace h : expPair (expand_symbol D R ctx fuel ab.1)
            (expand_symbol D R ctx fuel ab.2) = .ok v := h
        show expPair (expand_symbol D R ctx (fuel + 1) ab.1)
            (expand_symbol D R ctx (fuel + 1) ab.2) = .ok v
        rcases expPair_ok_iff.1 h with ⟨va, vb, hva, hvb, hv⟩
        rw [ih hva, ih hvb, expPair_ok_ok, hv]

theorem expand_symbol_mono_le {D : Dict} {R : Rules} {ctx : Sym} {fuel fuel2 : Nat} {sym : Sym}
    {v : Bytes} (hle : fuel ≤ fuel2) (h : expand_symbol D R ctx fuel sym = .ok v) :
    expand_symbol D R ctx fuel2 sym = .ok v := by
  induction hle with
  | refl => exact h
  | step _ ih => exact expand_symbol_mono ih

theorem expandConcat_cons (D : Dict) (R : Rules) (ctx : Sym) (fuel : Nat) (s : Sym)
    (t : List Sym) :
    expandConcat D R ctx fuel (s :: t) =
      expPair (expand_symbol D R ctx fuel s) (expandConcat D R ctx fuel t) := rfl

theorem expandConcat_mono_le {D : Dict} {R : Rules} {ctx : Sym} {fuel fuel2 : Nat}
    (hle : fuel ≤ fuel2) :
    ∀ {l : List Sym} {v : Bytes}, expandConcat D R ctx fuel l = .ok v →
      expandConcat D R ctx fuel2 l = .ok v := by
  intro l
  induction l with
  | nil =>
    intro v h
    simp only [expandConcat] at h ⊢
    exact h
  | cons s t ih =>
    intro v h
    rw [expandConcat_cons] at h ⊢
    rcases expPair_ok_iff.1 h with ⟨va, vb, hva, hvb, hv⟩
    rw [expand_symbol_mono_le hle hva, ih hvb, expPair_ok_ok, hv]

theorem expandConcat_ok_mem {D : Dict} {R : Rules} {ctx : Sym} {fuel : Nat} :
    ∀ {l : List Sym} {v : Bytes}, expandConcat D R ctx fuel l = .ok v →
      ∀ s ∈ l, ∃ u, expand_symbol D R ctx fuel s = .ok u := by
  intro l
  induction l with
  | nil =>
    intro v _ s hs
    simp at hs
  | cons s0 t ih =>
    intro v h s hs
    rw [expandConcat_cons] at h
    rcases expPair_ok_iff.1 h with ⟨va, vb, hva, hvb, _⟩
    rcases List.mem_cons.1 hs with hs | hs
    · exact ⟨va, hs ▸ hva⟩
    · exact ih hvb s hs

theorem writeLoop_of_concat_ok {D : Dict} {R : Rules} {ctx : Sym} {fuel : Nat} :
    ∀ {l : List Sym} {v : Bytes}, expandConcat D R ctx fuel l = .ok v →
      ∀ acc, writeLoop (expand_symbol D R ctx fuel) l acc = (acc ++ v, none) := by
  intro l
  induction l with
  | nil =>
    intro v h acc
    simp only [expandConcat] at h
    cases h
    simp [writeLoop]
  | cons s t ih =>
    intro v h acc
    rw [expandConcat_cons] at h
    rcases expPair_ok_iff.1 h with ⟨va, vb, hva, hvb, hv⟩
    simp only [writeLoop, hva, ih hvb]
    rw [hv, List.append_assoc]

/-! ## Rule-set extension and substitution preservation -/

theorem RBound_mono {k : Nat} {s : Sym} (h : RBound k s) : RBound (k + 1) s :=
  fun j hj => Nat.lt_succ_of_lt (h j hj)

theorem RBound_Rname_self (k : Nat) : RBound (k + 1) (Rname k) := by
  intro j hj
  rw [← Rname_inj hj]
  omega

theorem expand_symbol_extend {D : Dict} {rs : Rules} {k : Nat} {nab : Sym × Sym} {ctx : Sym}
    (hops : ∀ e ∈ rs, RBound k e.2.1 ∧ RBound k e.2.2) :
    ∀ (fuel : Nat) (sym : Sym), RBound k sym →
      expand_symbol D (rs ++ [(Rname k, nab)]) ctx fuel sym =
        expand_symbol D rs ctx fuel sym := by
  intro fuel
  induction fuel with
  | zero => intro sym _; rfl
  | succ fuel ih =>
    intro sym hs
    rw [expand_symbol_succ, expand_symbol_succ]
    cases hd : alookup sym D with
    | some e => rfl
    | none =>
      cases hr : alookup sym rs with
      | some ab =>
        rw [alookup_append_of_some _ hr]
        have hab := hops _ (alookup_mem hr)
        show expPair (expand_symbol D (rs ++ [(Rname k, nab)]) ctx fuel ab.1)
            (expand_symbol D (rs ++ [(Rname k, nab)]) ctx fuel ab.2) =
          expPair (expand_symbol D rs ctx fuel ab.1) (expand_symbol D rs ctx fuel ab.2)
        rw [ih ab.1 hab.1, ih ab.2 hab.2]
      | none =>
        have hne : ¬ (Rname k = sym) := by
          intro he
          exact absurd (hs k he.symm) (by omega)
        rw [alookup_append_of_none _ hr, show alookup sym [(Rname k, nab)] = none by
          simp [alookup, hne]]

theorem expandConcat_extend {D : Dict} {rs : Rules} {k : Nat} {nab : Sym × Sym} {ctx : Sym}
    (hops : ∀ e ∈ rs, RBound k e.2.1 ∧ RBound k e.2.2) :
    ∀ (fuel : Nat) (l : List Sym), (∀ s ∈ l, RBound k s) →
      expandConcat D (rs ++ [(Rname k, nab)]) ctx fuel l = expandConcat D rs ctx fuel l := by
  intro fuel l
  induction l with
  | nil => intro _; rfl
  | cons s t ih =>
    intro hl
    rw [expandConcat_cons, expandConcat_cons,
      expand_symbol_extend hops fuel s (hl s (by simp)),
      ih fun x hx => hl x (List.mem_cons_of_mem _ hx)]

theorem expandConcat_rewriteSpec {D : Dict} {rs2 : Rules} {ctx ns a b : Sym} {F : Nat}
    (hnsD : alookup ns D = none) (hnsR : alookup ns rs2 = some (a, b)) :
    ∀ (l : List Sym), (∀ s ∈ l, ∃ v, expand_symbol D rs2 ctx F s = .ok v) →
      expandConcat D rs2 ctx (F + 1) (rewriteSpec ns a b l) =
        expandConcat D rs2 ctx (F + 1) l
  | [] => fun _ => rfl
  | [x] => fun _ => rfl
  | x :: y :: rest => by
    intro hl
    by_cases h : x = a ∧ y = b
    · obtain ⟨hx, hy⟩ := h
      rcases hl x (by simp) with ⟨va, hva⟩
      rcases hl y (by simp) with ⟨vb, hvb⟩
      have hva2 : expand_symbol D rs2 ctx F a = .ok va := hx ▸ hva
      have hvb2 : expand_symbol D rs2 ctx F b = .ok vb := hy ▸ hvb
      have hns : expand_symbol D rs2 ctx (F + 1) ns = .ok (va ++ vb) := by
        rw [expand_symbol_succ, hnsD, hnsR]
        show expPair (expand_symbol D rs2 ctx F a) (expand_symbol D rs2 ctx F b) =
          .ok (va ++ vb)
        rw [hva2, hvb2, expPair_ok_ok]
      have hrec : expandConcat D rs2 ctx (F + 1) (rewriteSpec ns a b rest) =
          expandConcat D rs2 ctx (F + 1) rest :=
        expandConcat_rewriteSpec hnsD hnsR rest fun s hs => hl s (by simp [hs])
      rw [rewriteSpec_cons_cons, if_pos ⟨hx, hy⟩, expandConcat_cons, hns, hrec,
        expandConcat_cons, expand_symbol_mono hva, expandConcat_cons, expand_symbol_mono hvb]
      cases hrest : expandConcat D rs2 ctx (F + 1) rest with
      | error e => rfl
      | ok vs =>
        rw [expPair_ok_ok, expPair_ok_ok, expPair_ok_ok, List.append_assoc]
    · have hrec : expandConcat D rs2 ctx (F + 1) (rewriteSpec ns a b (y :: rest)) =
          expandConcat D rs2 ctx (F + 1) (y :: rest) :=
        expandConcat_rewriteSpec hnsD hnsR (y :: rest) fun s hs => hl s (by
          rcases List.mem_cons.1 hs with hs | hs
          · simp [hs]
          · simp [hs])
      rw [rewriteSpec_cons_cons, if_neg h, expandConcat_cons, expandConcat_cons, hrec]

/-! ## The grammar loop: invariants and expansion preservation -/

theorem bhrAux_succ (minFreq maxNew fuel : Nat) (seq : List Sym) (rs : Rules) (k : Nat) :
    bhrAux minFreq maxNew (fuel + 1) seq rs k =
      match mostCommon1 (countPairs seq) with
      | none => (seq, rs)
      | some (ab, freq) =>
        if freq < minFreq ∨ maxNew ≤ rs.length then (seq, rs)
        else bhrAux minFreq maxNew fuel (rewriteFrom (Rname k) ab.1 ab.2 seq 0)
          (rs ++ [(Rname k, ab)]) (k + 1) := rfl

theorem bhrAux_rules_le (minFreq maxNew : Nat) :
    ∀ (fuel : Nat) (seq : List Sym) (rs : Rules) (k : Nat), rs.length ≤ maxNew →
      (bhrAux minFreq maxNew fuel seq rs k).2.length ≤ maxNew := by
  intro fuel
  induction fuel with
  | zero => intro seq rs k h; exact h
  | succ fuel ih =>
    intro seq rs k h
    cases hm : mostCommon1 (countPairs seq) with
    | none =>
      rw [show bhrAux minFreq maxNew (fuel + 1) seq rs k = (seq, rs) by
        rw [bhrAux_succ, hm]]
      exact h
    | some e =>
      obtain ⟨ab, freq⟩ := e
      by_cases hg : freq < minFreq ∨ maxNew ≤ rs.length
      · rw [show bhrAux minFreq maxNew (fuel + 1) seq rs k = (seq, rs) by
          rw [bhrAux_succ, hm]; exact if_pos hg]
        exact h
      · rw [show bhrAux minFreq maxNew (fuel + 1) seq rs k =
            bhrAux minFreq maxNew fuel (rewriteFrom (Rname k) ab.1 ab.2 seq 0)
              (rs ++ [(Rname k, ab)]) (k + 1) by
          rw [bhrAux_succ, hm]; exact if_neg hg]
        refine ih _ _ _ ?_
        push_neg at hg
        simp only [List.length_append, List.length_cons, List.length_nil]
        omega

theorem bhrAux_sound {D : Dict} {ctx : Sym} {minFreq maxNew : Nat} {input : Bytes}
    (hD : ∀ j, alookup (Rname j) D = none)
    (Q : Sym → Prop) (hQR : ∀ j, Q (Rname j)) :
    ∀ (fuel : Nat) (seq : List Sym) (rs : Rules) (k : Nat),
      maxNew - rs.length < fuel →
      rs.map Prod.fst = (List.range k).map Rname →
      (∀ e ∈ rs, RBound k e.2.1 ∧ RBound k e.2.2) →
      (∀ s ∈ seq, RBound k s) →
      (∀ s ∈ seq, Q s) →
      expandConcat D rs ctx (k + 1) seq = .ok input →
      (expandConcat D (bhrAux minFreq maxNew fuel seq rs k).2 ctx
          ((bhrAux minFreq maxNew fuel seq rs k).2.length + 1)
          (bhrAux minFreq maxNew fuel seq rs k).1 = .ok input)
        ∧ (∀ s ∈ (bhrAux minFreq maxNew fuel seq rs k).1, Q s)
        ∧ ((bhrAux minFreq maxNew fuel seq rs k).1 = [] → seq = []) := by
  intro fuel
  induction fuel with
  | zero =>
    intro seq rs k hfuel
    omega
  | succ fuel ih =>
    intro seq rs k hfuel hkeys hops hseq hQ hexp
    have hlen : rs.length = k := by
      have := congrArg List.length hkeys
      simpa using this
    cases hm : mostCommon1 (countPairs seq) with
    | none =>
      rw [show bhrAux minFreq maxNew (fuel + 1) seq rs k = (seq, rs) by
        rw [bhrAux_succ, hm]]
      refine ⟨?_, hQ, fun h => h⟩
      rw [show (seq, rs).2 = rs from rfl, show (seq, rs).1 = seq from rfl, hlen]
      exact hexp
    | some e =>
      obtain ⟨ab, freq⟩ := e
      obtain ⟨a, b⟩ := ab
      by_cases hg : freq < minFreq ∨ maxNew ≤ rs.length
      · rw [show bhrAux minFreq maxNew (fuel + 1) seq rs k = (seq, rs) by
          rw [bhrAux_succ, hm]; exact if_pos hg]
        refine ⟨?_, hQ, fun h => h⟩
        rw [show (seq, rs).2 = rs from rfl, show (seq, rs).1 = seq from rfl, hlen]
        exact hexp
      · rw [show bhrAux minFreq maxNew (fuel + 1) seq rs k =
            bhrAux minFreq maxNew fuel (rewriteFrom (Rname k) a b seq 0)
              (rs ++ [(Rname k, (a, b))]) (k + 1) by
          rw [bhrAux_succ, hm]; exact if_neg hg]
        have hmem : ((a, b), freq) ∈ countPairs seq := by
          rcases mostCommon1_spec hm with ⟨l1, l2, hps, -, -⟩
          rw [hps]
          simp
        have hadj : (a, b) ∈ adjPairs seq := by
          have hk : (a, b) ∈ (countPairs seq).map Prod.fst :=
            List.mem_map_of_mem Prod.fst hmem
          rw [countPairs_keys] at hk
          exact mem_dedupF.1 hk
        have ha_mem : a ∈ seq := (List.of_mem_zip hadj).1
        have hb_mem : b ∈ seq := List.mem_of_mem_tail (List.of_mem_zip hadj).2
        have hkeys2 : (rs ++ [(Rname k, (a, b))]).map Prod.fst =
            (List.range (k + 1)).map Rname := by
          rw [List.map_append, hkeys, List.range_succ, List.map_append]
          rfl
        have hops2 : ∀ e ∈ rs ++ [(Rname k, (a, b))],
            RBound (k + 1) e.2.1 ∧ RBound (k + 1) e.2.2 := by
          intro e he
          rcases List.mem_append.1 he with he | he
          · exact ⟨RBound_mono (hops e he).1, RBound_mono (hops e he).2⟩
          · rw [List.mem_singleton.1 he]
            exact ⟨RBound_mono (hseq a ha_mem), RBound_mono (hseq b hb_mem)⟩
        have hseq2 : ∀ s ∈ rewriteFrom (Rname k) a b seq 0, RBound (k + 1) s := by
          rw [rewriteFrom_eq_spec]
          intro s hs
          rcases rewriteSpec_mem _ s hs with hs | hs
          · rw [hs]
            exact RBound_Rname_self k
          · exact RBound_mono (hseq s hs)
        have hQ2 : ∀ s ∈ rewriteFrom (Rname k) a b seq 0, Q s := by
          rw [rewriteFrom_eq_spec]
          intro s hs
          rcases rewriteSpec_mem _ s hs with hs | hs
          · rw [hs]
            exact hQR k
          · exact hQ s hs
        have hnotin : alookup (Rname k) rs = none := by
          rw [alookup_eq_none_iff, hkeys]
          intro hmemk
          rcases List.mem_map.1 hmemk with ⟨j, hj, hje⟩
          have hjk := Rname_inj hje
          have := List.mem_range.1 hj
          omega
        have hnsR : alookup (Rname k) (rs ++ [(Rname k, (a, b))]) = some (a, b) := by
          rw [alookup_append_of_none _ hnotin]
          simp [alookup]
        have hext : expandConcat D (rs ++ [(Rname k, (a, b))]) ctx (k + 1) seq = .ok input := by
          rw [expandConcat_extend hops _ _ hseq]
          exact hexp
        have hpt := expandConcat_ok_mem hext
        have hexp2 : expandConcat D (rs ++ [(Rname k, (a, b))]) ctx ((k + 1) + 1)
            (rewriteFrom (Rname k) a b seq 0) = .ok input := by
          rw [rewriteFrom_eq_spec]
          rw [show (k + 1) + 1 = (k + 1) + 1 from rfl,
            expandConcat_rewriteSpec (hD k) hnsR seq hpt]
          exact expandConcat_mono_le (by omega) hext
        have hfuel2 : maxNew - (rs ++ [(Rname k, (a, b))]).length < fuel := by
          push_neg at hg
          simp only [List.length_append, List.length_cons, List.length_nil]
          omega
        rcases ih _ _ _ hfuel2 hkeys2 hops2 hseq2 hQ2 hexp2 with ⟨h1, h2, h3⟩
        refine ⟨h1, h2, fun hnil => ?_⟩
        have := h3 hnil
        rw [rewriteFrom_eq_spec] at this
        by_contra hne
        exact rewriteSpec_ne_nil hne this

/-! ## First streaming pass: sequence and local symbol map -/

theorem firstPassAux_seq (hash : Bytes → List Char) (h2s : List (Sym × Sym)) :
    ∀ (chunks : List Bytes) (lmap : List (Sym × Sym)),
      (∀ e ∈ lmap, e.2 = 'L' :: e.1) →
      (firstPassAux hash h2s chunks lmap).1 = chunks.map (symOf hash h2s) := by
  intro chunks
  induction chunks with
  | nil => intro lmap _; rfl
  | cons c rest ih =>
    intro lmap hwf
    cases hg : alookup (hash c) h2s with
    | some g =>
      simp only [firstPassAux, hg, List.map_cons, symOf]
      rw [ih lmap hwf]
    | none =>
      cases hl : alookup (hash c) lmap with
      | some sym =>
        have hsym : sym = 'L' :: hash c := hwf _ (alookup_mem hl)
        simp only [firstPassAux, hg, hl, List.map_cons, symOf]
        rw [ih lmap hwf, hsym]
      | none =>
        have hwf2 : ∀ e ∈ lmap ++ [(hash c, 'L' :: hash c)], e.2 = 'L' :: e.1 := by
          intro e he
          rcases List.mem_append.1 he with he | he
          · exact hwf e he
          · rw [List.mem_singleton.1 he]
        simp only [firstPassAux, hg, hl, List.map_cons, symOf]
        rw [ih _ hwf2]

theorem firstPassAux_lmap_wf (hash : Bytes → List Char) (h2s : List (Sym × Sym)) :
    ∀ (chunks : List Bytes) (lmap : List (Sym × Sym)),
      (∀ e ∈ lmap, e.2 = 'L' :: e.1) →
      ∀ e ∈ (firstPassAux hash h2s chunks lmap).2, e.2 = 'L' :: e.1 := by
  intro chunks
  induction chunks with
  | nil => intro lmap hwf; exact hwf
  | cons c rest ih =>
    intro lmap hwf
    cases hg : alookup (hash c) h2s with
    | some g =>
      simp only [firstPassAux, hg]
      exact ih lmap hwf
    | none =>
      cases hl : alookup (hash c) lmap with
      | some sym =>
        simp only [firstPassAux, hg, hl]
        exact ih lmap hwf
      | none =>
        simp only [firstPassAux, hg, hl]
        refine ih _ ?_
        intro e he
        rcases List.mem_append.1 he with he | he
        · exact hwf e he
        · rw [List.mem_singleton.1 he]

theorem firstPassAux_lmap_some (hash : Bytes → List Char) (h2s : List (Sym × Sym)) :
    ∀ (chunks : List Bytes) (lmap : List (Sym × Sym)) (h : List Char) (v : Sym),
      alookup h lmap = some v →
      alookup h (firstPassAux hash h2s chunks lmap).2 = some v := by
  intro chunks
  induction chunks with
  | nil => intro lmap h v hv; exact hv
  | cons c rest ih =>
    intro lmap h v hv
    cases hg : alookup (hash c) h2s with
    | some g =>
      simp only [firstPassAux, hg]
      exact ih lmap h v hv
    | none =>
      cases hl : alookup (hash c) lmap with
      | some sym =>
        simp only [firstPassAux, hg, hl]
        exact ih lmap h v hv
      | none =>
        simp only [firstPassAux, hg, hl]
        exact ih _ h v (alookup_append_of_some _ hv)

theorem firstPassAux_local_mem (hash : Bytes → List Char) (h2s : List (Sym × Sym)) :
    ∀ (chunks : List Bytes) (lmap : List (Sym × Sym)) (c : Bytes),
      c ∈ chunks → alookup (hash c) h2s = none →
      (∀ e ∈ lmap, e.2 = 'L' :: e.1) →
      alookup (hash c) (firstPassAux hash h2s chunks lmap).2 = some ('L' :: hash c) := by
  intro chunks
  induction chunks with
  | nil => intro lmap c hc; simp at hc
  | cons c0 rest ih =>
    intro lmap c hc hglob hwf
    cases hg : alookup (hash c0) h2s with
    | some g =>
      simp only [firstPassAux, hg]
      have hc0 : c ∈ rest := by
        rcases List.mem_cons.1 hc with hc | hc
        · rw [hc] at hglob
          rw [hglob] at hg
          cases hg
        · exact hc
      exact ih lmap c hc0 hglob hwf
    | none =>
      cases hl : alookup (hash c0) lmap with
      | some sym =>
        simp only [firstPassAux, hg, hl]
        rcases List.mem_cons.1 hc with hc | hc
        · subst hc
          have hsym : sym = 'L' :: hash c := hwf _ (alookup_mem hl)
          rw [hsym] at hl
          exact firstPassAux_lmap_some hash h2s rest lmap _ _ hl
        · exact ih lmap c hc hglob hwf
      | none =>
        simp only [firstPassAux, hg, hl]
        have hwf2 : ∀ e ∈ lmap ++ [(hash c0, 'L' :: hash c0)], e.2 = 'L' :: e.1 := by
          intro e he
          rcases List.mem_append.1 he with he | he
          · exact hwf e he
          · rw [List.mem_singleton.1 he]
        rcases List.mem_cons.1 hc with hc | hc
        · subst hc
          have : alookup (hash c) (lmap ++ [(hash c, 'L' :: hash c)]) =
              some ('L' :: hash c) := by
            rw [alookup_append_of_none _ hl]
            simp [alookup]
          exact firstPassAux_lmap_some hash h2s rest _ _ _ this
        · exact ih _ c hc hglob hwf2

theorem firstPassAux_lmap_none (hash : Bytes → List Char) (h2s : List (Sym × Sym)) :
    ∀ (chunks : List Bytes) (lmap : List (Sym × Sym)) (h : List Char) (g : Sym),
      alookup h h2s = some g → alookup h lmap = none →
      alookup h (firstPassAux hash h2s chunks lmap).2 = none := by
  intro chunks
  induction chunks with
  | nil => intro lmap h g _ hn; exact hn
  | cons c0 rest ih =>
    intro lmap h g hg2s hn
    cases hg : alookup (hash c0) h2s with
    | some g0 =>
      simp only [firstPassAux, hg]
      exact ih lmap h g hg2s hn
    | none =>
      cases hl : alookup (hash c0) lmap with
      | some sym =>
        simp only [firstPassAux, hg, hl]
        exact ih lmap h g hg2s hn
      | none =>
        simp only [firstPassAux, hg, hl]
        have hne : hash c0 ≠ h := by
          intro he
          rw [he, hg2s] at hg
          cases hg
        refine ih _ h g hg2s ?_
        rw [alookup_append_of_none _ hn]
        simp [alookup, hne]

theorem mkHashToSym_wf (g : Dict) : ∀ e ∈ mkHashToSym g, e.2 = 'S' :: e.1 := by
  intro e he
  rw [mkHashToSym] at he
  rcases List.mem_filterMap.1 he with ⟨d, -, hd⟩
  split at hd
  · simp only [Option.some.injEq] at hd
    rw [← hd]
  · cases hd

/-! ## Symbol counting (dedup) -/

theorem count_symOf (hash : Bytes → List Char) (h2s : List (Sym × Sym))
    (hwf : ∀ e ∈ h2s, ∃ t, e.2 = 'S' :: t) {c : Bytes}
    (hglob : alookup (hash c) h2s = none) :
    ∀ (chunks : List Bytes), (∀ c2 ∈ chunks, hash c2 = hash c → c2 = c) →
      (chunks.map (symOf hash h2s)).count ('L' :: hash c) = chunks.count c := by
  intro chunks
  induction chunks with
  | nil => intro _; rfl
  | cons c0 rest ih =>
    intro hinj
    have hrest := ih fun c2 h2 => hinj c2 (List.mem_cons_of_mem _ h2)
    by_cases hc0 : c0 = c
    · subst hc0
      have hsym : symOf hash h2s c0 = 'L' :: hash c0 := by
        rw [symOf, hglob]
      simp only [List.map_cons, List.count_cons, hrest, hsym]
      simp
    · have hsymne : symOf hash h2s c0 ≠ 'L' :: hash c := by
        cases hg : alookup (hash c0) h2s with
        | some g =>
          have hs0 : symOf hash h2s c0 = g := by rw [symOf, hg]
          rcases hwf _ (alookup_mem hg) with ⟨t, ht⟩
          have ht2 : g = 'S' :: t := ht
          rw [hs0, ht2]
          simp
        | none =>
          have hs0 : symOf hash h2s c0 = 'L' :: hash c0 := by rw [symOf, hg]
          rw [hs0]
          intro he
          simp only [List.cons.injEq, true_and] at he
          exact hc0 (hinj c0 (by simp) he)
      simp only [List.map_cons, List.count_cons, hrest]
      have h1 : (symOf hash h2s c0 == ('L' :: hash c)) = false :=
        beq_eq_false_iff_ne.2 hsymne
      have h2 : (c0 == c) = false := beq_eq_false_iff_ne.2 hc0
      rw [h1, h2]

theorem count_symOf_global (hash : Bytes → List Char) (h2s : List (Sym × Sym))
    (hwf : ∀ e ∈ h2s, e.2 = 'S' :: e.1) {c : Bytes} {g0 : Sym}
    (hglob : alookup (hash c) h2s = some g0) :
    ∀ (chunks : List Bytes), (∀ c2 ∈ chunks, hash c2 = hash c → c2 = c) →
      (chunks.map (symOf hash h2s)).count g0 = chunks.count c := by
  have hg0 : g0 = 'S' :: hash c := hwf _ (alookup_mem hglob)
  intro chunks
  induction chunks with
  | nil => intro _; rfl
  | cons c0 rest ih =>
    intro hinj
    have hrest := ih fun c2 h2 => hinj c2 (List.mem_cons_of_mem _ h2)
    by_cases hc0 : c0 = c
    · subst hc0
      have hsym : symOf hash h2s c0 = g0 := by rw [symOf, hglob]
      simp only [List.map_cons, List.count_cons, hrest, hsym]
      simp
    · have hhne : hash c0 ≠ hash c := fun he => hc0 (hinj c0 (by simp) he)
      have hsymne : symOf hash h2s c0 ≠ g0 := by
        cases hg : alookup (hash c0) h2s with
        | some g1 =>
          have hs0 : symOf hash h2s c0 = g1 := by rw [symOf, hg]
          have hg1 : g1 = 'S' :: hash c0 := hwf _ (alookup_mem hg)
          rw [hs0, hg1, hg0]
          simp [hhne]
        | none =>
          have hs0 : symOf hash h2s c0 = 'L' :: hash c0 := by rw [symOf, hg]
          rw [hs0, hg0]
          simp
      simp only [List.map_cons, List.count_cons, hrest]
      have h1 : (symOf hash h2s c0 == g0) = false := beq_eq_false_iff_ne.2 hsymne
      have h2 : (c0 == c) = false := beq_eq_false_iff_ne.2 hc0
      rw [h1, h2]

/-! ## Second streaming pass: payload capture -/

theorem capturePass_lookup (hash : Bytes → List Char) (lmap : List (Sym × Sym))
    (contexts : List Sym) (hlm : ∀ e ∈ lmap, e.2 = 'L' :: e.1) (hctx : contexts ≠ []) :
    ∀ (rem : List Bytes) (seen : List Sym) (c : Bytes),
      c ∈ rem → hash c ∉ seen →
      alookup (hash c) lmap = some ('L' :: hash c) →
      (∀ c2 ∈ rem, hash c2 = hash c → c2 = c) →
      alookup ('L' :: hash c) (capturePass hash lmap contexts rem seen) =
        some (contexts.map fun k2 => (k2, toHex c)) := by
  intro rem
  induction rem with
  | nil => intro seen c hc; simp at hc
  | cons c0 rest ih =>
    intro seen c hc hseen hcl hinj
    by_cases hc0 : c0 = c
    · subst hc0
      rw [show capturePass hash lmap contexts (c0 :: rest) seen =
          ('L' :: hash c0, contexts.map fun k2 => (k2, toHex c0)) ::
            capturePass hash lmap contexts rest (hash c0 :: seen) by
        cases contexts with
        | nil => exact absurd rfl hctx
        | cons k0 ks => simp [capturePass, hcl, hseen]]
      simp [alookup]
    · have hcrest : c ∈ rest := by
        rcases List.mem_cons.1 hc with hc | hc
        · exact absurd hc.symm hc0
        · exact hc
      have hinj2 : ∀ c2 ∈ rest, hash c2 = hash c → c2 = c := fun c2 h2 =>
        hinj c2 (List.mem_cons_of_mem _ h2)
      have hhne : hash c0 ≠ hash c := fun he => hc0 (hinj c0 (by simp) he)
      cases hl0 : alookup (hash c0) lmap with
      | none =>
        rw [show capturePass hash lmap contexts (c0 :: rest) seen =
            capturePass hash lmap contexts rest seen by simp [capturePass, hl0]]
        exact ih seen c hcrest hseen hcl hinj2
      | some sym =>
        by_cases hs0 : hash c0 ∈ seen
        · rw [show capturePass hash lmap contexts (c0 :: rest) seen =
              capturePass hash lmap contexts rest seen by simp [capturePass, hl0, hs0]]
          exact ih seen c hcrest hseen hcl hinj2
        · have hsym : sym = 'L' :: hash c0 := hlm _ (alookup_mem hl0)
          have hsymne : ¬ (sym = 'L' :: hash c) := by
            rw [hsym]
            simp [hhne]
          rw [show capturePass hash lmap contexts (c0 :: rest) seen =
              (sym, contexts.map fun k2 => (k2, toHex c0)) ::
                capturePass hash lmap contexts rest (hash c0 :: seen) by
            cases contexts with
            | nil => exact absurd rfl hctx
            | cons k0 ks => simp [capturePass, hl0, hs0]]
          rw [alookup, if_neg hsymne]
          refine ih _ c hcrest ?_ hcl hinj2
          simp only [List.mem_cons]
          rintro (he | he)
          · exact hhne he.symm
          · exact hseen he

theorem capturePass_keys (hash : Bytes → List Char) (lmap : List (Sym × Sym))
    (contexts : List Sym) (hlm : ∀ e ∈ lmap, e.2 = 'L' :: e.1) :
    ∀ (rem : List Bytes) (seen : List Sym) (e : Sym × Entry),
      e ∈ capturePass hash lmap contexts rem seen → ∃ h, e.1 = 'L' :: h := by
  intro rem
  induction rem with
  | nil => intro seen e he; simp [capturePass] at he
  | cons c0 rest ih =>
    intro seen e he
    cases hl0 : alookup (hash c0) lmap with
    | none =>
      rw [show capturePass hash lmap contexts (c0 :: rest) seen =
          capturePass hash lmap contexts rest seen by simp [capturePass, hl0]] at he
      exact ih seen e he
    | some sym =>
      by_cases hs0 : hash c0 ∈ seen
      · rw [show capturePass hash lmap contexts (c0 :: rest) seen =
            capturePass hash lmap contexts rest seen by simp [capturePass, hl0, hs0]] at he
        exact ih seen e he
      · cases contexts with
        | nil =>
          rw [show capturePass hash lmap [] (c0 :: rest) seen =
              capturePass hash lmap [] rest (hash c0 :: seen) by
            simp [capturePass, hl0, hs0]] at he
          exact ih _ e he
        | cons k0 ks =>
          rw [show capturePass hash lmap (k0 :: ks) (c0 :: rest) seen =
              (sym, (k0 :: ks).map fun k2 => (k2, toHex c0)) ::
                capturePass hash lmap (k0 :: ks) rest (hash c0 :: seen) by
            simp [capturePass, hl0, hs0]] at he
          rcases List.mem_cons.1 he with he | he
          · refine ⟨hash c0, ?_⟩
            rw [he]
            exact congrArg Prod.fst (by rfl) |>.trans (hlm _ (alookup_mem hl0))
          · exact ih _ e he

/-! ## Terminal resolution and initial-sequence expansion -/

theorem resolveEntry_ctx {ctx : Sym} {e : Entry} {v : List Char} {bs : Bytes}
    (h : alookup ctx e = some v) (hv : fromHex v = some bs) :
    resolveEntry ctx e = .ok bs := by
  rw [resolveEntry, h]
  show (match fromHex v with
    | some bs => Except.ok bs
    | none => Except.error ExpErr.valueError) = Except.ok bs
  rw [hv]

theorem expand_symbol_terminal {D : Dict} {R : Rules} {ctx : Sym} {fuel : Nat} {sym : Sym}
    {e : Entry} (hd : alookup sym D = some e) :
    expand_symbol D R ctx (fuel + 1) sym = resolveEntry ctx e := by
  rw [expand_symbol_succ, hd]

theorem expandConcat_initial {D : Dict} {R : Rules} {ctx : Sym} (hash : Bytes → List Char) :
    ∀ (chunks : List Bytes),
      (∀ c ∈ chunks, ∃ e, alookup ('L' :: hash c) D = some e ∧ resolveEntry ctx e = .ok c) →
      ∀ fuel, expandConcat D R ctx (fuel + 1) (chunks.map fun c => 'L' :: hash c) =
        .ok chunks.flatten := by
  intro chunks
  induction chunks with
  | nil => intro _ fuel; rfl
  | cons c rest ih =>
    intro hD fuel
    rcases hD c (by simp) with ⟨e, he, hre⟩
    rw [List.map_cons, expandConcat_cons, expand_symbol_terminal he, hre,
      ih (fun c2 h2 => hD c2 (List.mem_cons_of_mem _ h2)) fuel, expPair_ok_ok,
      List.flatten_cons]

theorem joinComma_ne_nil {l : List Sym} (hl : l ≠ []) (hne : ∀ s ∈ l, s ≠ []) :
    joinComma l ≠ [] := by
  cases l with
  | nil => exact absurd rfl hl
  | cons x t =>
    cases t with
    | nil => exact hne x (by simp)
    | cons y r =>
      simp only [joinComma]
      intro h
      rcases List.append_eq_nil.1 h with ⟨-, h2⟩
      cases h2

/-! ## Decode-walk characterization -/

theorem writeLoop_cons (f : Sym → Except ExpErr Bytes) (s : Sym) (t : List Sym) (acc : Bytes) :
    writeLoop f (s :: t) acc =
      match f s with
      | .ok b => writeLoop f t (acc ++ b)
      | .error e => (acc, some e) := rfl

theorem writeLoop_takeWhile (f : Sym → Except ExpErr Bytes) :
    ∀ (l : List Sym) (acc : Bytes),
      writeLoop f l acc =
        (acc ++ ((l.takeWhile fun s => excOk (f s)).map fun s => excVal (f s)).flatten,
          match l.dropWhile fun s => excOk (f s) with
          | [] => none
          | s :: _ => excErr (f s)) := by
  intro l
  induction l with
  | nil =>
    intro acc
    simp [writeLoop]
  | cons s t ih =>
    intro acc
    cases hf : f s with
    | ok b =>
      rw [writeLoop_cons, hf]
      show writeLoop f t (acc ++ b) = _
      rw [ih]
      simp only [List.takeWhile_cons, List.dropWhile_cons, hf]
      simp [excOk, excVal, hf, List.append_assoc]
    | error e =>
      rw [writeLoop_cons, hf]
      show (acc, some e) = _
      simp only [List.takeWhile_cons, List.dropWhile_cons, hf]
      simp [excOk, excErr, hf]

theorem cyc_expand (ctx : Sym) :
    ∀ fuel, expand_symbol cycTemplate.dictionary cycTemplate.rules ctx fuel ['R', '0'] =
      .error .recursionError := by
  intro fuel
  induction fuel with
  | zero => rfl
  | succ fuel ih =>
    rw [expand_symbol_succ, show alookup ['R', '0'] cycTemplate.dictionary = none from rfl,
      show alookup ['R', '0'] cycTemplate.rules = some (['R', '0'], ['R', '0']) from rfl]
    show expPair (expand_symbol cycTemplate.dictionary cycTemplate.rules ctx fuel ['R', '0'])
        (expand_symbol cycTemplate.dictionary cycTemplate.rules ctx fuel ['R', '0']) =
      .error .recursionError
    rw [ih]
    rfl

/-! ## Claim theorems -/

/-- Claim C10: the bytes `decode_template` writes depend only on the
template's `dictionary`, `rules` and `sequence` fields and on the chosen
context; two templates that differ arbitrarily in the meta fields
(`chunk_size`, `orig_file`, `total_chunks`) decode to identical output, and
the decoder performs no validation of the declared chunk count or size. -/
theorem C10_meta_independent (fuel : Nat) (ctx : Sym) (d : Dict) (r : Rules) (s : List Char)
    (cs1 cs2 tc1 tc2 : Nat) (of1 of2 : List Char) :
    decode_template fuel ⟨cs1, of1, tc1, d, r, s⟩ ctx =
      decode_template fuel ⟨cs2, of2, tc2, d, r, s⟩ ctx := rfl

/-- Claim C8 (code bug): on a template whose rule graph is cyclic
(`cycTemplate`: `R0 -> [R0, R0]`), `expand_symbol` has no recursion-depth or
visited-set guard and no `MalformedGrammar` condition exists anywhere in the
code: the recursion never completes at any finite stack depth, so CPython
aborts it with `RecursionError` (modelled by fuel exhaustion at every fuel),
contradicting the spec's requirement of a defined `MalformedGrammar` failure. -/
theorem C8_cycle_no_guard :
    ∀ fuel, decode_template fuel cycTemplate defaultCtx =
      ([], some ExpErr.recursionError) := by
  intro fuel
  show writeLoop (expand_symbol cycTemplate.dictionary cycTemplate.rules defaultCtx fuel)
      (if cycTemplate.sequence = [] then [] else splitComma cycTemplate.sequence) [] = _
  rw [if_neg (by decide), show splitComma cycTemplate.sequence = [['R', '0']] from rfl,
    writeLoop_cons, cyc_expand defaultCtx fuel]

/-- Claim C9, counterexample: decoding `badHexTemplate` (second dictionary
entry has non-hex payload) raises `ValueError` partway through the walk and
leaves the first symbol's bytes `[0x41]` in the output file — partial output
is produced, refuting "either a complete, correct output file is written or
none is". -/
theorem C9_counterexample :
    decode_template 1 badHexTemplate defaultCtx = ([65], some ExpErr.valueError) ∧
      ([65] : Bytes) ≠ [] := by
  constructor
  · decide
  · decide

/-- Claim C9, amended: `decode_template` truncates the output file on open and
writes each symbol's expansion as it is produced, so on a fatal error the file
holds exactly the concatenated expansions of the longest prefix of the
sequence that expands without an exception, and the error returned is that of
the first failing symbol; only when the first symbol already fails is the
file empty. -/
theorem C9_partial_write (fuel : Nat) (tpl : Template) (ctx : Sym) :
    decode_template fuel tpl ctx =
      ((((if tpl.sequence = [] then [] else splitComma tpl.sequence).takeWhile fun s =>
          excOk (expand_symbol tpl.dictionary tpl.rules ctx fuel s)).map fun s =>
            excVal (expand_symbol tpl.dictionary tpl.rules ctx fuel s)).flatten,
        match (if tpl.sequence = [] then [] else splitComma tpl.sequence).dropWhile fun s =>
            excOk (expand_symbol tpl.dictionary tpl.rules ctx fuel s) with
        | [] => none
        | s :: _ => excErr (expand_symbol tpl.dictionary tpl.rules ctx fuel s)) := by
  show writeLoop (expand_symbol tpl.dictionary tpl.rules ctx fuel)
      (if tpl.sequence = [] then [] else splitComma tpl.sequence) [] = _
  rw [writeLoop_takeWhile, List.nil_append]

theorem writeLoop_filter_known (D : Dict) (R : Rules) (ctx : Sym) (fuel : Nat) :
    ∀ (l : List Sym) (acc : Bytes),
      writeLoop (expand_symbol D R ctx (fuel + 1)) l acc =
        writeLoop (expand_symbol D R ctx (fuel + 1))
          (l.filter fun s => (alookup s D).isSome || (alookup s R).isSome) acc := by
  intro l
  induction l with
  | nil => intro acc; rfl
  | cons s t ih =>
    intro acc
    by_cases hk : ((alookup s D).isSome || (alookup s R).isSome) = true
    · have hfilter : (s :: t).filter (fun s => (alookup s D).isSome || (alookup s R).isSome) =
          s :: t.filter (fun s => (alookup s D).isSome || (alookup s R).isSome) := by
        simp [List.filter_cons, hk]
      rw [hfilter, writeLoop_cons, writeLoop_cons]
      cases hf : expand_symbol D R ctx (fuel + 1) s with
      | ok b =>
        show writeLoop (expand_symbol D R ctx (fuel + 1)) t (acc ++ b) =
          writeLoop (expand_symbol D R ctx (fuel + 1))
            (t.filter fun s => (alookup s D).isSome || (alookup s R).isSome) (acc ++ b)
        exact ih (acc ++ b)
      | error e => rfl
    · have hDn : alookup s D = none := by
        rcases hd : alookup s D with _ | v
        · rfl
        · rw [hd] at hk
          simp at hk
      have hRn : alookup s R = none := by
        rcases hr : alookup s R with _ | v
        · rfl
        · rw [hr] at hk
          simp at hk
      have hexp : expand_symbol D R ctx (fuel + 1) s = .ok [] := by
        rw [expand_symbol_succ, hDn, hRn]
      have hk2 : ((alookup s D).isSome || (alookup s R).isSome) = false := by
        simpa using hk
      have hfilter : (s :: t).filter (fun s => (alookup s D).isSome || (alookup s R).isSome) =
          t.filter (fun s => (alookup s D).isSome || (alookup s R).isSome) := by
        simp [List.filter_cons, hk2]
      rw [hfilter, writeLoop_cons, hexp]
      show writeLoop (expand_symbol D R ctx (fuel + 1)) t (acc ++ []) = _
      rw [List.append_nil]
      exact ih acc

/-- Claim C7: a symbol that is a key of neither the dictionary nor the rules
expands to the empty byte string (no exception), and the decode walk over any
sequence writes exactly what it would write for the subsequence of known
symbols — unknown symbols are silently dropped, not an error. -/
theorem C7_unknown_symbols :
    (∀ (D : Dict) (R : Rules) (ctx : Sym) (fuel : Nat) (sym : Sym),
        alookup sym D = none → alookup sym R = none →
        expand_symbol D R ctx (fuel + 1) sym = .ok [])
    ∧ ∀ (D : Dict) (R : Rules) (ctx : Sym) (fuel : Nat) (seq : List Sym),
        writeLoop (expand_symbol D R ctx (fuel + 1)) seq [] =
          writeLoop (expand_symbol D R ctx (fuel + 1))
            (seq.filter fun s => (alookup s D).isSome || (alookup s R).isSome) [] := by
  constructor
  · intro D R ctx fuel sym hD hR
    rw [expand_symbol_succ, hD, hR]
  · intro D R ctx fuel seq
    exact writeLoop_filter_known D R ctx fuel seq []

/-- Witness for C7 at a concrete unknown symbol. -/
theorem C7_witness : expand_symbol [] [] [] 1 ['X'] = .ok [] :=
  C7_unknown_symbols.1 [] [] [] 0 ['X'] rfl rfl

/-- Claim C4: `build_hierarchical_rules` terminates for every input (it is a
total function of this development, defined by structural recursion on a fuel
bound proved sufficient), and for `min_pair_freq ≥ 1` it creates at most
`max_new_symbols` rules: each iteration either stops or appends exactly one
rule, and the loop stops once `len(rules) >= max_new_symbols`. -/
theorem C4_grammar_termination (sequence : List Sym) (max_new_symbols min_pair_freq : Nat)
    (_hmf : 1 ≤ min_pair_freq) :
    (build_hierarchical_rules sequence max_new_symbols min_pair_freq).2.length ≤
      max_new_symbols := by
  rw [build_hierarchical_rules]
  exact bhrAux_rules_le _ _ _ _ _ _ (by simp)

/-- Witness for C4 at a concrete sequence and bounds. -/
theorem C4_witness :
    (build_hierarchical_rules [['a'], ['a'], ['a'], ['a']] 10 2).2.length ≤ 10 :=
  C4_grammar_termination [['a'], ['a'], ['a'], ['a']] 10 2 (by decide)

/-- Claim C3: pair counting counts every adjacent position independently
(the counter value of a pair equals its occurrence count in the list of all
adjacent position pairs, so overlapping occurrences all count — in
`[A, A, A]` the pair `(A, A)` counts 2), while the substitution pass is the
non-overlapping left-to-right replacement: the source's index-based loop
(`rewriteFrom`, advancing 2 past each match and 1 otherwise) equals the
structural description `rewriteSpec`. -/
theorem C3_overlap_count_rewrite :
    (∀ (seq : List Sym) (p : Sym × Sym),
        (alookup p (countPairs seq)).getD 0 = (adjPairs seq).count p)
    ∧ countPairs [['A'], ['A'], ['A']] = [((['A'], ['A']), 2)]
    ∧ ∀ (ns a b : Sym) (seq : List Sym), rewriteFrom ns a b seq 0 = rewriteSpec ns a b seq :=
  ⟨countPairs_getD, by decide, rewriteFrom_eq_spec⟩

/-- Claim C2: when several adjacent pairs share the maximal frequency, the
winner returned by `most_common(1)` is the pair first encountered in the
left-to-right scan: its count is maximal, and it is the first element of the
adjacent-pair list whose count attains the maximum (`find?`).  Consequently
the whole of `build_hierarchical_rules` is deterministic: equal inputs and
parameters give equal rule sets and final sequences. -/
theorem C2_first_seen_tie_break :
    (∀ (seq : List Sym) (p : Sym × Sym) (f : Nat),
        mostCommon1 (countPairs seq) = some (p, f) →
        (adjPairs seq).count p = f ∧ (∀ q, (adjPairs seq).count q ≤ f) ∧
          (adjPairs seq).find? (fun q => (adjPairs seq).count q == f) = some p)
    ∧ ∀ (s1 s2 : List Sym) (mx1 mx2 mf1 mf2 : Nat), s1 = s2 → mx1 = mx2 → mf1 = mf2 →
        build_hierarchical_rules s1 mx1 mf1 = build_hierarchical_rules s2 mx2 mf2 := by
  constructor
  · intro seq p f hm
    rcases mostCommon1_spec hm with ⟨l1, l2, hps, hl1, hall⟩
    have hmem : (p, f) ∈ countPairs seq := by
      rw [hps]
      simp
    have hnd := countPairs_nodup seq
    have hlookup : alookup p (countPairs seq) = some f := alookup_of_mem_nodup hnd hmem
    have hcount : (adjPairs seq).count p = f := countPairs_lookup_count hlookup
    have hpos : 0 < f := countPairs_pos seq _ hmem
    have hpadj : p ∈ adjPairs seq := List.count_pos_iff.1 (by omega)
    have hbound : ∀ q, (adjPairs seq).count q ≤ f := by
      intro q
      by_cases hq : (adjPairs seq).count q = 0
      · omega
      · have hqmem : q ∈ adjPairs seq := List.count_pos_iff.1 (by omega)
        have hql := countPairs_lookup_of_mem hqmem
        exact hall _ (alookup_mem hql)
    refine ⟨hcount, hbound, ?_⟩
    refine find?_eq_of_firstIdx hpadj ?_ ?_
    · rw [hcount]
      simp
    · intro y hy hpy
      have hyc : (adjPairs seq).count y = f := by simpa using hpy
      have hyl : alookup y (countPairs seq) = some f := by
        rw [countPairs_lookup_of_mem hy, hyc]
      have hkeq : (countPairs seq).map Prod.fst =
          l1.map Prod.fst ++ p :: l2.map Prod.fst := by
        rw [hps]
        simp
      have hynotl1 : y ∉ l1.map Prod.fst := by
        intro hmem1
        rcases List.mem_map.1 hmem1 with ⟨d, hd, hdy⟩
        obtain ⟨dk, dv⟩ := d
        have hdmem : (dk, dv) ∈ countPairs seq := by
          rw [hps]
          exact List.mem_append.2 (Or.inl hd)
        have hdl : alookup dk (countPairs seq) = some dv := alookup_of_mem_nodup hnd hdmem
        have hdky : dk = y := hdy
        rw [hdky, hyl] at hdl
        have hdvf : dv = f := by
          cases hdl
          rfl
        have := hl1 _ hd
        simp only at this
        omega
      refine firstIdx_le_of_pairwise (countPairs_pairwise seq) (countPairs_nodup seq)
        ?_ ?_ ⟨l1.map Prod.fst, l2.map Prod.fst, hkeq, hynotl1⟩
      · rw [countPairs_keys]
        exact mem_dedupF.2 hpadj
      · rw [countPairs_keys]
        exact mem_dedupF.2 hy
  · rintro s1 s2 mx1 mx2 mf1 mf2 rfl rfl rfl
    rfl

/-- Witness for C2: in `[b, a, a, b, c, c]` every adjacent pair occurs once;
the first-seen pair `(b, a)` wins the tie. -/
theorem C2_witness :
    ((adjPairs [['b'], ['a'], ['a'], ['b'], ['c'], ['c']]).count (['b'], ['a']) = 1 ∧
      (∀ q, (adjPairs [['b'], ['a'], ['a'], ['b'], ['c'], ['c']]).count q ≤ 1) ∧
      (adjPairs [['b'], ['a'], ['a'], ['b'], ['c'], ['c']]).find?
        (fun q => (adjPairs [['b'], ['a'], ['a'], ['b'], ['c'], ['c']]).count q == 1) =
        some (['b'], ['a'])) ∧
    build_hierarchical_rules [] 0 0 = build_hierarchical_rules [] 0 0 :=
  ⟨C2_first_seen_tie_break.1 [['b'], ['a'], ['a'], ['b'], ['c'], ['c']] (['b'], ['a']) 1
    (by decide),
   C2_first_seen_tie_break.2 [] [] 0 0 0 0 rfl rfl rfl⟩

/-! ## Terminal fallback chain (C6) -/

theorem firstUsable_cons (e : Sym × List Char) (t : Entry) :
    firstUsable (e :: t) =
      match fromHex e.2 with
      | some bs => bs
      | none => firstUsable t := rfl

theorem firstUsable_append_none {e1 : Entry} (h1 : ∀ p ∈ e1, fromHex p.2 = none) (e2 : Entry) :
    firstUsable (e1 ++ e2) = firstUsable e2 := by
  induction e1 with
  | nil => rfl
  | cons q t ih =>
    rw [List.cons_append, firstUsable_cons, h1 q (by simp)]
    exact ih fun p hp => h1 p (List.mem_cons_of_mem _ hp)

theorem firstUsable_all_none {e : Entry} (h : ∀ p ∈ e, fromHex p.2 = none) :
    firstUsable e = [] := by
  have := firstUsable_append_none h []
  rw [List.append_nil] at this
  exact this

theorem resolveEntry_default {ctx : Sym} {e : Entry} {v : List Char} {bs : Bytes}
    (h1 : alookup ctx e = none) (h2 : alookup defaultCtx e = some v)
    (hv : fromHex v = some bs) : resolveEntry ctx e = .ok bs := by
  rw [resolveEntry, h1, h2]
  show (match fromHex v with
    | some bs => Except.ok bs
    | none => Except.error ExpErr.valueError) = Except.ok bs
  rw [hv]

theorem resolveEntry_fallback {ctx : Sym} {e : Entry}
    (h1 : alookup ctx e = none) (h2 : alookup defaultCtx e = none) :
    resolveEntry ctx e = .ok (firstUsable e) := by
  rw [resolveEntry, h1, h2]

/-- Claim C6: terminal resolution order — the active context's bytes when the
context is a key of the entry; otherwise the `"DEFAULT"` bytes when present;
otherwise the first value in the entry's stored order that parses as hex;
otherwise the empty byte string.  In particular an entry with only a
`"DEFAULT"` key expanded under context `"VIDEO"` yields the `"DEFAULT"` bytes,
and an entry with no contexts yields empty bytes. -/
theorem C6_context_fallback :
    (∀ (ctx : Sym) (e : Entry) (v : List Char) (bs : Bytes),
        alookup ctx e = some v → fromHex v = some bs → resolveEntry ctx e = .ok bs)
    ∧ (∀ (ctx : Sym) (e : Entry) (v : List Char) (bs : Bytes),
        alookup ctx e = none → alookup defaultCtx e = some v → fromHex v = some bs →
        resolveEntry ctx e = .ok bs)
    ∧ (∀ (ctx k : Sym) (e1 e2 : Entry) (v : List Char) (bs : Bytes),
        alookup ctx (e1 ++ (k, v) :: e2) = none →
        alookup defaultCtx (e1 ++ (k, v) :: e2) = none →
        (∀ p ∈ e1, fromHex p.2 = none) → fromHex v = some bs →
        resolveEntry ctx (e1 ++ (k, v) :: e2) = .ok bs)
    ∧ (∀ (ctx : Sym) (e : Entry),
        alookup ctx e = none → alookup defaultCtx e = none →
        (∀ p ∈ e, fromHex p.2 = none) → resolveEntry ctx e = .ok [])
    ∧ (∀ (v : List Char) (bs : Bytes), fromHex v = some bs →
        resolveEntry ['V', 'I', 'D', 'E', 'O'] [(defaultCtx, v)] = .ok bs)
    ∧ ∀ ctx : Sym, resolveEntry ctx [] = .ok [] := by
  refine ⟨?_, ?_, ?_, ?_, ?_, ?_⟩
  · intro ctx e v bs h hv
    exact resolveEntry_ctx h hv
  · intro ctx e v bs h1 h2 hv
    exact resolveEntry_default h1 h2 hv
  · intro ctx k e1 e2 v bs h1 h2 hnone hv
    rw [resolveEntry_fallback h1 h2, firstUsable_append_none hnone, firstUsable_cons]
    show Except.ok (match fromHex v with
      | some bs => bs
      | none => firstUsable e2) = Except.ok bs
    rw [hv]
  · intro ctx e h1 h2 hnone
    rw [resolveEntry_fallback h1 h2, firstUsable_all_none hnone]
  · intro v bs hv
    refine resolveEntry_default ?_ ?_ hv
    · have hne : defaultCtx ≠ ['V', 'I', 'D', 'E', 'O'] := by decide
      rw [alookup, if_neg hne]
      rfl
    · rw [alookup, if_pos rfl]
  · intro ctx
    rfl

/-- Witness for C6 at concrete entries: a `"DEFAULT"`-only entry expanded
under `"VIDEO"` yields the `"DEFAULT"` bytes, and the empty entry yields
empty bytes. -/
theorem C6_witness :
    resolveEntry ['V', 'I', 'D', 'E', 'O'] [(defaultCtx, ['4', '1'])] = .ok [65] ∧
      resolveEntry ['V', 'I', 'D', 'E', 'O'] [] = .ok [] :=
  ⟨C6_context_fallback.2.2.2.2.1 ['4', '1'] [65] (by decide),
   C6_context_fallback.2.2.2.2.2 ['V', 'I', 'D', 'E', 'O']⟩

/-- Claim C5: in one encode run, the symbol emitted for a chunk is a function
of its fingerprint alone, so (assuming fingerprints do not collide) a chunk
whose bytes occur `k` times in the input is represented by exactly one
symbol that appears exactly `k` times in the initial sequence — in both
branches: a fingerprint that misses the global dictionary gets the single
local symbol `"L" + h`, bound once in the local symbol map, while a
fingerprint present in the global dictionary is emitted as that global
symbol (also appearing exactly `k` times) and no local symbol is ever
allocated for it. -/
theorem C5_dedup (hash : Bytes → List Char) (g : Dict) (chunks : List Bytes) (c : Bytes)
    (hinj : ∀ c1 ∈ chunks, ∀ c2 ∈ chunks, hash c1 = hash c2 → c1 = c2)
    (hc : c ∈ chunks) :
    (firstPassAux hash (mkHashToSym g) chunks []).1 = chunks.map (symOf hash (mkHashToSym g))
    ∧ (alookup (hash c) (mkHashToSym g) = none →
        ((firstPassAux hash (mkHashToSym g) chunks []).1.count ('L' :: hash c) =
            chunks.count c
          ∧ alookup (hash c) (firstPassAux hash (mkHashToSym g) chunks []).2 =
              some ('L' :: hash c)))
    ∧ ∀ g0, alookup (hash c) (mkHashToSym g) = some g0 →
        (symOf hash (mkHashToSym g) c = g0
          ∧ (firstPassAux hash (mkHashToSym g) chunks []).1.count g0 = chunks.count c
          ∧ alookup (hash c) (firstPassAux hash (mkHashToSym g) chunks []).2 = none) := by
  have hseq := firstPassAux_seq hash (mkHashToSym g) chunks [] (by simp)
  refine ⟨hseq, ?_, ?_⟩
  · intro hglob
    constructor
    · rw [hseq]
      exact count_symOf hash (mkHashToSym g)
        (fun e he => ⟨e.1, mkHashToSym_wf g e he⟩) hglob chunks
        (fun c2 h2 => hinj c2 h2 c hc)
    · exact firstPassAux_local_mem hash (mkHashToSym g) chunks [] c hc hglob (by simp)
  · intro g0 hg0
    refine ⟨?_, ?_, ?_⟩
    · rw [symOf, hg0]
    · rw [hseq]
      exact count_symOf_global hash (mkHashToSym g) (mkHashToSym_wf g) hg0 chunks
        (fun c2 h2 => hinj c2 h2 c hc)
    · exact firstPassAux_lmap_none hash (mkHashToSym g) chunks [] (hash c) g0 hg0 rfl

/-- Witness for C5: chunks `[1]` (global hit via `gW`) and `[2]` (local),
exercising the occurrence counts of both branches. -/
theorem C5_witness :
    ((firstPassAux hashW (mkHashToSym gW) [[1], [2]] []).1 =
        [[1], [2]].map (symOf hashW (mkHashToSym gW)))
    ∧ ((firstPassAux hashW (mkHashToSym gW) [[1], [2]] []).1.count ('L' :: hashW [2]) =
        [[1], [2]].count [2])
    ∧ (alookup (hashW [2]) (firstPassAux hashW (mkHashToSym gW) [[1], [2]] []).2 =
        some ('L' :: hashW [2]))
    ∧ (symOf hashW (mkHashToSym gW) [1] = ['S', '0', '1'])
    ∧ ((firstPassAux hashW (mkHashToSym gW) [[1], [2]] []).1.count ['S', '0', '1'] =
        [[1], [2]].count [1])
    ∧ alookup (hashW [1]) (firstPassAux hashW (mkHashToSym gW) [[1], [2]] []).2 = none := by
  have h2 := C5_dedup hashW gW [[1], [2]] [2] (by decide) (by decide)
  have h1 := C5_dedup hashW gW [[1], [2]] [1] (by decide) (by decide)
  exact ⟨h2.1, (h2.2.1 (by decide)).1, (h2.2.1 (by decide)).2,
    (h1.2.2 ['S', '0', '1'] (by decide)).1, (h1.2.2 ['S', '0', '1'] (by decide)).2.1,
    (h1.2.2 ['S', '0', '1'] (by decide)).2.2⟩

/-- Claim C1: round trip.  For every input byte sequence (bytes < 256), every
positive chunk size, every context list containing `c`, and any
`min_pair_freq`, decoding the template produced by
`encode_file(input, contexts)` (no global dictionary, the default) under
context `c` writes exactly the original input and raises no exception —
under the claim's precondition that no two distinct chunks share a
fingerprint, the fingerprint contract that digests consist of hex characters
(hence no comma), and any recursion depth `fuel` at least `rules + 1` deep
(the unguarded Python recursion needs one frame per grammar level). -/
theorem C1_round_trip (hash : Bytes → List Char) (input : Bytes) (contexts : List Sym)
    (c : Sym) (chunk_size min_pair_freq : Nat) (orig_name : List Char) (fuel : Nat)
    (hc : c ∈ contexts) (hcs : 0 < chunk_size)
    (hbytes : ∀ b ∈ input, b < 256)
    (hhex : ∀ bs : Bytes, ',' ∉ hash bs)
    (hinj : ∀ c1 ∈ chunksOf chunk_size input, ∀ c2 ∈ chunksOf chunk_size input,
        hash c1 = hash c2 → c1 = c2)
    (hfuel : (encode_file hash [] contexts chunk_size min_pair_freq input
        orig_name).rules.length + 1 ≤ fuel) :
    decode_template fuel
      (encode_file hash [] contexts chunk_size min_pair_freq input orig_name) c =
      (input, none) := by
  have hwfnil : ∀ e ∈ ([] : List (Sym × Sym)), e.2 = 'L' :: e.1 := by simp
  have hctxne : contexts ≠ [] := by
    intro h
    rw [h] at hc
    simp at hc
  have htpl : encode_file hash [] contexts chunk_size min_pair_freq input orig_name =
      { chunk_size := chunk_size
        orig_file := orig_name
        total_chunks := (chunksOf chunk_size input).length
        dictionary := [] ++ capturePass hash
          (firstPassAux hash [] (chunksOf chunk_size input) []).2 contexts
          (chunksOf chunk_size input) []
        rules := (bhrAux min_pair_freq 10000 (10000 + 1)
          (firstPassAux hash [] (chunksOf chunk_size input) []).1 [] 0).2
        sequence := joinComma (bhrAux min_pair_freq 10000 (10000 + 1)
          (firstPassAux hash [] (chunksOf chunk_size input) []).1 [] 0).1 } := rfl
  rw [htpl] at hfuel ⊢
  set chunks := chunksOf chunk_size input with hch
  set lmapF := (firstPassAux hash [] chunks []).2 with hlm
  set seq0 := (firstPassAux hash [] chunks []).1 with hs0
  set D := capturePass hash lmapF contexts chunks [] with hDdef
  set P := bhrAux min_pair_freq 10000 (10000 + 1) seq0 [] 0 with hPdef
  have hwfl : ∀ e ∈ lmapF, e.2 = 'L' :: e.1 := by
    rw [hlm]
    exact firstPassAux_lmap_wf hash [] chunks [] hwfnil
  have hseq : seq0 = chunks.map fun cb => 'L' :: hash cb := by
    rw [hs0, firstPassAux_seq hash [] chunks [] hwfnil]
    exact List.map_congr_left fun cb _ => rfl
  have hD_res : ∀ cb ∈ chunks, ∃ e, alookup ('L' :: hash cb) D = some e ∧
      resolveEntry c e = .ok cb := by
    intro cb hcb
    have hglob : alookup (hash cb) ([] : List (Sym × Sym)) = none := rfl
    have hlk : alookup (hash cb) lmapF = some ('L' :: hash cb) := by
      rw [hlm]
      exact firstPassAux_local_mem hash [] chunks [] cb hcb hglob hwfnil
    refine ⟨contexts.map fun k2 => (k2, toHex cb), ?_, ?_⟩
    · rw [hDdef]
      exact capturePass_lookup hash lmapF contexts hwfl hctxne chunks [] cb hcb
        (by simp) hlk (fun c2 h2 hh => hinj c2 h2 cb hcb hh)
    · refine resolveEntry_ctx (alookup_map_const hc) (fromHex_toHex ?_)
      intro b hb
      exact hbytes b (mem_chunksOf_sub (hch ▸ hcb) b hb)
  have hexp0 : expandConcat D [] c (0 + 1) seq0 = .ok input := by
    rw [hseq, expandConcat_initial hash chunks hD_res 0, hch, chunksOf_flatten hcs]
  have hDnotR : ∀ j, alookup (Rname j) D = none := by
    intro j
    rw [hDdef, alookup_eq_none_iff]
    intro hmem
    rcases List.mem_map.1 hmem with ⟨e, he, hek⟩
    rcases capturePass_keys hash lmapF contexts hwfl chunks [] e he with ⟨h0, hh0⟩
    rw [hh0, Rname] at hek
    injection hek with h1 h2
    exact absurd h1 (by decide)
  have hRB0 : ∀ s ∈ seq0, RBound 0 s := by
    rw [hseq]
    intro s hs j hj
    rcases List.mem_map.1 hs with ⟨cb, -, hcb⟩
    rw [← hcb, Rname] at hj
    injection hj with h1 h2
    exact absurd h1 (by decide)
  have hQ0 : ∀ s ∈ seq0, s ≠ [] ∧ ',' ∉ s := by
    rw [hseq]
    intro s hs
    rcases List.mem_map.1 hs with ⟨cb, -, hcb⟩
    rw [← hcb]
    refine ⟨by simp, ?_⟩
    intro hmm
    rcases List.mem_cons.1 hmm with hmm | hmm
    · exact absurd hmm.symm (by decide)
    · exact hhex cb hmm
  have hQR2 : ∀ j, Rname j ≠ [] ∧ ',' ∉ Rname j := fun j =>
    ⟨Rname_ne_nil j, comma_not_mem_Rname j⟩
  have hloop :
      (expandConcat D (bhrAux min_pair_freq 10000 (10000 + 1) seq0 [] 0).2 c
          ((bhrAux min_pair_freq 10000 (10000 + 1) seq0 [] 0).2.length + 1)
          (bhrAux min_pair_freq 10000 (10000 + 1) seq0 [] 0).1 = .ok input)
        ∧ (∀ s ∈ (bhrAux min_pair_freq 10000 (10000 + 1) seq0 [] 0).1, s ≠ [] ∧ ',' ∉ s)
        ∧ ((bhrAux min_pair_freq 10000 (10000 + 1) seq0 [] 0).1 = [] → seq0 = []) :=
    bhrAux_sound hDnotR (fun s => s ≠ [] ∧ ',' ∉ s) hQR2 (10000 + 1) seq0 [] 0
      (by omega) (by simp) (by simp) hRB0 hQ0 hexp0
  rw [← hPdef] at hloop
  rcases hloop with ⟨hEC, hQf, hnil⟩
  show writeLoop (expand_symbol ([] ++ D) P.2 c fuel)
      (if joinComma P.1 = [] then [] else splitComma (joinComma P.1)) [] = (input, none)
  rw [List.nil_append]
  by_cases hP1 : P.1 = []
  · have hseq0nil : seq0 = [] := hnil hP1
    have hchnil : chunks = [] := by
      rw [hseq] at hseq0nil
      exact List.map_eq_nil_iff.1 hseq0nil
    have hinput : input = [] := by
      have hfl := chunksOf_flatten hcs input
      rw [← hch, hchnil] at hfl
      simpa using hfl.symm
    rw [hP1, show joinComma [] = [] from rfl, if_pos rfl, hinput]
    rfl
  · have hne : ∀ s ∈ P.1, s ≠ [] := fun s hs => (hQf s hs).1
    have hcomma : ∀ s ∈ P.1, ',' ∉ s := fun s hs => (hQf s hs).2
    rw [if_neg (joinComma_ne_nil hP1 hne), splitComma_joinComma hP1 hcomma]
    have hfuel2 : P.2.length + 1 ≤ fuel := hfuel
    have hECf : expandConcat D P.2 c fuel P.1 = .ok input :=
      expandConcat_mono_le (by omega) hEC
    rw [writeLoop_of_concat_ok hECf [], List.nil_append]

/-- Witness for C1: input `[1, 2, 3, 4]`, chunk size 2, context `"DEFAULT"`. -/
theorem C1_witness :
    decode_template 1 (encode_file hashW [] [defaultCtx] 2 2 [1, 2, 3, 4] []) defaultCtx =
      ([1, 2, 3, 4], none) :=
  C1_round_trip hashW [1, 2, 3, 4] [defaultCtx] defaultCtx 2 2 [] 1
    (by decide) (by decide) (by decide) (fun bs => comma_not_mem_toHex bs)
    (by decide) (by decide)

end SealGate
